import Mathlib

/-!
Verification development for the MojoLib container library (MojoSet.h).

Shallow embedding conventions:
* Keys are natural numbers; the key value 0 plays the role of the reserved
  hash-null sentinel (so a slot is empty iff it holds 0, and the
  default-constructed slot is 0).  Key equality is equality on Nat.
* The hash function of the key type is an explicit parameter
  hf : Nat -> Nat of every operation; nothing is assumed about it.
* Map and multimap slots are pairs (key, value); a slot is empty iff its
  key component is 0.
* The C++ int counters are modelled as Nat (their values stay nonnegative
  along the modelled paths).
* The allocator is modelled by a Boolean argument allocOk saying whether a
  call to Allocate made during the operation returns memory (true) or NULL
  (false); the buffer is an Option (List _), none standing for a NULL
  buffer pointer.
* The C++ template code is mutually recursive (Insert calls Grow which
  calls Resize which calls Insert while refilling a freshly allocated
  table) and the multimap removal loops scan a cyclic table; both are
  modelled with an explicit fuel argument.  The fuel used by the public
  entry points is large enough for every execution in which the C++ code
  terminates; theorems about states where termination matters prove that
  the fuel is not exhausted.
-/

inductive MojoStatus where
  | Ok
  | NotInitialized
  | DoubleInitialized
  | InvalidArguments
  | CouldNotAlloc
  | NotFound
deriving DecidableEq

open MojoStatus

/-- Read slot i of an optional buffer, with a default for a NULL buffer or
an out-of-range index (the modelled C++ reads never rely on the default on
the paths the theorems talk about). -/
def getE {α : Type} (dflt : α) (b : Option (List α)) (i : Nat) : α :=
  (b.getD []).getD i dflt

/-- Write slot i of an optional buffer. -/
def setE {α : Type} (b : Option (List α)) (i : Nat) (v : α) : Option (List α) :=
  b.map (fun l => l.set i v)

/-- The probe scan shared by every FindEmptyOrMatching variant: scan the
indices start, start+1, ..., tc-1, then wrap and scan 0, ..., start-1,
returning the first index whose slot satisfies good (empty or matching);
fall back to 0 when no index qualifies.  This mirrors the two for loops of
the C++ FindEmptyOrMatching. -/
def femIdx (tc start : Nat) (good : Nat → Bool) : Nat :=
  match (List.range' start (tc - start)).find? good with
  | some i => i
  | none =>
    match (List.range' 0 start).find? good with
    | some i => i
    | none => 0

/-- State of a MojoSet (a key-only open-addressed hash table).
The fields mirror the C++ data members; ownsAlloc models m_Alloc being a
non-NULL allocator pointer. -/
structure MojoSetT where
  buf : Option (List Nat)
  allocCount : Nat
  tableCount : Nat
  activeCount : Nat
  changeCount : Nat
  status : MojoStatus
  allocCountMin : Nat
  tableCountMin : Nat
  growThreshold : Nat
  shrinkThreshold : Nat
  autoGrow : Bool
  autoShrink : Bool
  dynamicAlloc : Bool
  ownsAlloc : Bool
deriving DecidableEq

namespace MojoSetT

/-- MojoSet::FindEmptyOrMatching: first slot from hash(key) mod table_count
(wrapping) that is empty or holds key. -/
def FindEmptyOrMatching (hf : Nat → Nat) (s : MojoSetT) (key : Nat) : Nat :=
  femIdx s.tableCount (hf key % s.tableCount)
    (fun i => getE 0 s.buf i == 0 || getE 0 s.buf i == key)

/-- MojoSet::Reinsert: move the entry at index to its probe position if it
is not already there. -/
def Reinsert (hf : Nat → Nat) (s : MojoSetT) (index : Nat) : MojoSetT :=
  let e := getE 0 s.buf index
  let ni := FindEmptyOrMatching hf s e
  if ni ≠ index then
    { s with buf := setE (setE s.buf ni e) index 0 }
  else s

/-- One fix-up step list: stop at the first empty slot, otherwise reinsert.
Models the two fix-up loops at the end of MojoSet::RemoveOne (a return in
the first loop also skips the second, so the index lists are concatenated
before folding). -/
def removeFixupGo (hf : Nat → Nat) (s : MojoSetT) : List Nat → MojoSetT
  | [] => s
  | i :: rest =>
    if getE 0 s.buf i == 0 then s
    else removeFixupGo hf (Reinsert hf s i) rest

/-- MojoSet::RemoveOne: locate the key, clear its slot, then fix up the
following cluster.  Returns (removed?, new state). -/
def RemoveOne (hf : Nat → Nat) (s : MojoSetT) (key : Nat) : Bool × MojoSetT :=
  if key == 0 then (false, s)
  else
    let index := FindEmptyOrMatching hf s key
    if getE 0 s.buf index == 0 then (false, s)
    else
      let s1 := { s with buf := setE s.buf index 0, activeCount := s.activeCount - 1 }
      let idxs := List.range' (index + 1) (s.tableCount - (index + 1)) ++ List.range' 0 index
      (true, removeFixupGo hf s1 idxs)

/-- Fold used when a freshly allocated table is refilled from the old
buffer during MojoSet::Resize; ins is the (fueled) Insert. -/
def refillFold (ins : MojoSetT → Nat → MojoSetT) (s : MojoSetT) (old : List Nat) : MojoSetT :=
  old.foldl (fun acc e => if e ≠ 0 then ins acc e else acc) s

/-- In-place resize sweep: reinsert every occupied slot of the first n
positions (used by the shrink-in-place and grow-in-place branches of
MojoSet::Resize). -/
def sweepReinsert (hf : Nat → Nat) (s : MojoSetT) (idxs : List Nat) : MojoSetT :=
  idxs.foldl (fun acc i => if getE 0 acc.buf i ≠ 0 then Reinsert hf acc i else acc) s

/-- Grow-in-place tail sweep: walk the freshly added part of the table and
reinsert until the first empty slot (second loop of the grow branch of
MojoSet::Resize). -/
def sweepTail (hf : Nat → Nat) (s : MojoSetT) : List Nat → MojoSetT
  | [] => s
  | i :: rest =>
    if getE 0 s.buf i == 0 then s
    else sweepTail hf (Reinsert hf s i) rest

mutual

/-- MojoSet::Resize, fueled (the realloc branch refills the new buffer with
Insert, which can recursively resize). -/
def ResizeF (hf : Nat → Nat) (allocOk : Bool) : Nat → MojoSetT → Nat → Nat → MojoSetT
  | 0, s, _, _ => s
  | fuel + 1, s, ntc, ncap =>
    if s.ownsAlloc ∧ s.allocCount ≠ ncap then
      let oldBuf := s.buf
      let oldTc := s.tableCount
      let s1 : MojoSetT :=
        { s with allocCount := ncap, tableCount := ntc, activeCount := 0,
                 buf := if ncap ≠ 0 then (if allocOk then some (List.replicate ncap 0) else none)
                        else none }
      let s2 :=
        match oldBuf, s1.buf with
        | some old, some _ =>
          refillFold (fun a e => InsertF hf allocOk fuel a e) s1 (old.take oldTc)
        | _, _ => s1
      s2
    else if ntc < s.tableCount then
      let oldTc := s.tableCount
      sweepReinsert hf { s with tableCount := ntc } (List.range oldTc)
    else if ntc > s.tableCount then
      let oldTc := s.tableCount
      let s1 := sweepReinsert hf { s with tableCount := ntc } (List.range oldTc)
      sweepTail hf s1 (List.range' oldTc (ntc - oldTc))
    else s

/-- MojoSet::Grow, fueled. -/
def GrowF (hf : Nat → Nat) (allocOk : Bool) : Nat → MojoSetT → MojoSetT
  | 0, s => s
  | fuel + 1, s =>
    if s.activeCount * 100 ≥ s.tableCount * s.growThreshold then
      let ntc0 := s.tableCount * 2
      let ncap0 := max s.allocCount ntc0
      let ncap := if ¬ s.dynamicAlloc then s.allocCount else ncap0
      let ntc := if ¬ s.dynamicAlloc then min ntc0 ncap else ntc0
      ResizeF hf allocOk fuel s ntc ncap
    else s

/-- MojoSet::Insert, fueled. -/
def InsertF (hf : Nat → Nat) (allocOk : Bool) : Nat → MojoSetT → Nat → MojoSetT
  | 0, s, _ => s
  | fuel + 1, s, key =>
    if s.status ≠ Ok then s
    else if key == 0 then s
    else
      let s1 := if s.autoGrow then GrowF hf allocOk fuel s else s
      if s1.activeCount < s1.tableCount then
        let index := FindEmptyOrMatching hf s1 key
        if getE 0 s1.buf index == 0 then
          { s1 with buf := setE s1.buf index key,
                    activeCount := s1.activeCount + 1,
                    changeCount := s1.changeCount + 1 }
        else s1
      else s1

end

/-- Result status of MojoSet::Insert (computed exactly as the C++ status
variable; the state change is InsertF). -/
def InsertStatus (hf : Nat → Nat) (allocOk : Bool) (fuel : Nat) (s : MojoSetT) (key : Nat) :
    MojoStatus :=
  if s.status ≠ Ok then s.status
  else if key == 0 then InvalidArguments
  else
    let s1 := if s.autoGrow then GrowF hf allocOk fuel s else s
    if s1.activeCount < s1.tableCount then Ok else CouldNotAlloc

/-- MojoSet::Shrink, fueled. -/
def ShrinkF (hf : Nat → Nat) (allocOk : Bool) (fuel : Nat) (s : MojoSetT) : MojoSetT :=
  if s.tableCount > s.tableCountMin ∧ s.activeCount * 100 < s.tableCount * s.shrinkThreshold then
    let ntc := max (s.tableCount / 2) s.tableCountMin
    let ncap0 := max ntc s.allocCountMin
    let ncap := if ¬ s.dynamicAlloc then s.allocCount else ncap0
    ResizeF hf allocOk fuel s ntc ncap
  else s

/-- Default fuel for the public entry points: ample for every terminating
execution (table sizes double with each nested resize). -/
def defFuel (s : MojoSetT) : Nat :=
  s.allocCount + s.tableCount + 2 * s.activeCount + 64

/-- MojoSet::Insert public entry point (state part). -/
def Insert (hf : Nat → Nat) (allocOk : Bool) (s : MojoSetT) (key : Nat) : MojoSetT :=
  InsertF hf allocOk (defFuel s) s key

/-- MojoSet::Insert public entry point (returned status). -/
def InsertRet (hf : Nat → Nat) (allocOk : Bool) (s : MojoSetT) (key : Nat) : MojoStatus :=
  InsertStatus hf allocOk (defFuel s) s key

/-- MojoSet::Remove (state part): remove the key then auto-shrink. -/
def Remove (hf : Nat → Nat) (allocOk : Bool) (s : MojoSetT) (key : Nat) : MojoSetT :=
  if s.status ≠ Ok then s
  else if key ≠ 0 then
    match RemoveOne hf s key with
    | (true, s1) =>
      let s2 := { s1 with changeCount := s1.changeCount + 1 }
      if s2.autoShrink then ShrinkF hf allocOk (defFuel s2) s2 else s2
    | (false, _) => s
  else s

/-- MojoSet::Remove (returned status). -/
def RemoveRet (hf : Nat → Nat) (s : MojoSetT) (key : Nat) : MojoStatus :=
  if s.status ≠ Ok then s.status
  else if key ≠ 0 then
    match RemoveOne hf s key with
    | (true, _) => Ok
    | (false, _) => NotFound
  else NotFound

/-- MojoSet::Update (state part): grow check then shrink check. -/
def Update (hf : Nat → Nat) (allocOk : Bool) (s : MojoSetT) : MojoSetT :=
  if s.status = Ok then
    ShrinkF hf allocOk (defFuel s) (GrowF hf allocOk (defFuel s) s)
  else s

/-- MojoSet::Contains. -/
def Contains (hf : Nat → Nat) (s : MojoSetT) (key : Nat) : Bool :=
  if s.status = Ok ∧ key ≠ 0 then
    let index := FindEmptyOrMatching hf s key
    getE 0 s.buf index != 0
  else false

/-- MojoSet::GetCount. -/
def GetCount (s : MojoSetT) : Nat := s.activeCount

/-- MojoSet::_GetNextIndex: next occupied slot strictly after index. -/
def GetNextIndex (s : MojoSetT) (index : Nat) : Nat :=
  match (List.range' (index + 1) (s.tableCount - (index + 1))).find?
      (fun i => getE 0 s.buf i != 0) with
  | some i => i
  | none => s.tableCount

/-- The uninitialized state produced by Init() with a given configuration
remembered for later (configuration fields are only set by Create; holding
them here keeps the model a plain record). -/
def initState : MojoSetT :=
  { buf := none, allocCount := 0, tableCount := 0, activeCount := 0,
    changeCount := 0, status := NotInitialized,
    allocCountMin := 0, tableCountMin := 0, growThreshold := 0, shrinkThreshold := 0,
    autoGrow := false, autoShrink := false, dynamicAlloc := false, ownsAlloc := false }

/-- MojoSet::Create with a dynamic allocator (fixed_array = NULL), fueled
through the initial Resize. -/
def Create (hf : Nat → Nat) (allocOk : Bool)
    (allocCountMin tableCountMin growThreshold shrinkThreshold : Nat)
    (autoGrow autoShrink dynamicAlloc : Bool) : MojoSetT :=
  if allocCountMin ≤ 1 ∨ tableCountMin ≤ 1 ∨ growThreshold ≤ shrinkThreshold * 2 then
    { initState with status := InvalidArguments }
  else
    let s : MojoSetT :=
      { buf := none, allocCount := 0, tableCount := 0, activeCount := 0,
        changeCount := 0, status := Ok,
        allocCountMin := allocCountMin, tableCountMin := tableCountMin,
        growThreshold := growThreshold, shrinkThreshold := shrinkThreshold,
        autoGrow := autoGrow, autoShrink := autoShrink,
        dynamicAlloc := dynamicAlloc, ownsAlloc := true }
    let s1 := ResizeF hf allocOk 64 s tableCountMin (max allocCountMin tableCountMin)
    if s1.buf = none then { s1 with status := CouldNotAlloc } else s1

end MojoSetT

/-- A multimap slot: key and value.  The slot is empty iff the key is 0;
the value 0 plays the role of the value type's hash-null (used only by the
single-pair Remove guard). -/
abbrev KV : Type := Nat × Nat

/-- State of a MojoMultiMap (one-to-many open-addressed hash table). -/
structure MojoMMT where
  buf : Option (List KV)
  allocCount : Nat
  tableCount : Nat
  activeCount : Nat
  changeCount : Nat
  status : MojoStatus
  allocCountMin : Nat
  tableCountMin : Nat
  growThreshold : Nat
  shrinkThreshold : Nat
  autoGrow : Bool
  autoShrink : Bool
  dynamicAlloc : Bool
  ownsAlloc : Bool
deriving DecidableEq

namespace MojoMMT

/-- MojoMultiMap::FindEmptyOrMatching(key): first slot from the key's home
that is empty or has a matching key. -/
def FindKey (hf : Nat → Nat) (s : MojoMMT) (key : Nat) : Nat :=
  femIdx s.tableCount (hf key % s.tableCount)
    (fun i => (getE (0, 0) s.buf i).1 == 0 || (getE (0, 0) s.buf i).1 == key)

/-- MojoMultiMap::FindEmptyOrMatching(key, value): first slot from the
key's home that is empty or holds exactly the pair. -/
def FindPair (hf : Nat → Nat) (s : MojoMMT) (key value : Nat) : Nat :=
  femIdx s.tableCount (hf key % s.tableCount)
    (fun i => (getE (0, 0) s.buf i).1 == 0 ||
      ((getE (0, 0) s.buf i).1 == key && (getE (0, 0) s.buf i).2 == value))

/-- MojoMultiMap::Reinsert: move the pair at index to its probe position
(pair-sensitive probe). -/
def Reinsert (hf : Nat → Nat) (s : MojoMMT) (index : Nat) : MojoMMT :=
  let e := getE (0, 0) s.buf index
  let ni := FindPair hf s e.1 e.2
  if ni ≠ index then
    { s with buf := setE (setE s.buf ni e) index (0, 0) }
  else s

/-- Body of MojoMultiMap::FixUp: walk the given index list consuming one
unit of count per position (stopping when count runs out), reinserting the
occupied slots; empty slots are skipped, not stopped at. -/
def fixUpGo (hf : Nat → Nat) (s : MojoMMT) : List Nat → Nat → MojoMMT
  | [], _ => s
  | _ :: _, 0 => s
  | i :: rest, c + 1 =>
    if (getE (0, 0) s.buf i).1 ≠ 0 then fixUpGo hf (Reinsert hf s i) rest c
    else fixUpGo hf s rest c

/-- MojoMultiMap::FixUp(index, count): the positions after index (wrapping,
both loops concatenated), bounded by count. -/
def FixUp (hf : Nat → Nat) (s : MojoMMT) (index count : Nat) : MojoMMT :=
  fixUpGo hf s
    (List.range' (index + 1) (s.tableCount - (index + 1)) ++ List.range' 0 index) count

/-- The scanning while loop shared by RemoveAll and the single-pair
RemoveOne: walk forward (wrapping) from i clearing the slots that satisfy
hit, counting every visited occupied slot, until an empty slot is reached.
The fuel bounds the loop; with the fuel used below it never runs out on
the paths where the C++ loop terminates (the C++ loop does not terminate
on a completely full table with no hit, and this model then merely stops). -/
def removeScan (hit : KV → Bool) (s : MojoMMT) : Nat → Nat → Nat → MojoMMT × Nat
  | _, count, 0 => (s, count)
  | i, count, fuel + 1 =>
    if (getE (0, 0) s.buf i).1 == 0 then (s, count)
    else
      let s1 :=
        if hit (getE (0, 0) s.buf i) then
          { s with buf := setE s.buf i (0, 0), activeCount := s.activeCount - 1 }
        else s
      removeScan hit s1 ((i + 1) % s.tableCount) (count + 1) fuel

/-- MojoMultiMap::RemoveAll: clear every pair with the key inside its run,
then fix up the scanned stretch.  Returns (removed-any?, new state). -/
def RemoveAll (hf : Nat → Nat) (s : MojoMMT) (key : Nat) : Bool × MojoMMT :=
  let before := s.activeCount
  if key ≠ 0 then
    let index := FindKey hf s key
    if (getE (0, 0) s.buf index).1 ≠ 0 then
      let sc := removeScan (fun e => e.1 == key) s index 0 (s.tableCount + 1)
      let s2 := FixUp hf sc.1 index sc.2
      (s2.activeCount < before, s2)
    else (false, s)
  else (false, s)

/-- MojoMultiMap::RemoveOne(key, value): same scan clearing only the exact
pair. -/
def RemoveOnePair (hf : Nat → Nat) (s : MojoMMT) (key value : Nat) : Bool × MojoMMT :=
  let before := s.activeCount
  if key ≠ 0 ∧ value ≠ 0 then
    let index := FindKey hf s key
    if (getE (0, 0) s.buf index).1 ≠ 0 then
      let sc := removeScan (fun e => e.1 == key && e.2 == value) s index 0 (s.tableCount + 1)
      let s2 := FixUp hf sc.1 index sc.2
      (s2.activeCount < before, s2)
    else (false, s)
  else (false, s)

/-- Refill fold for the realloc branch of MojoMultiMap::Resize. -/
def refillFold (ins : MojoMMT → KV → MojoMMT) (s : MojoMMT) (old : List KV) : MojoMMT :=
  old.foldl (fun acc e => if e.1 ≠ 0 then ins acc e else acc) s

/-- In-place resize sweep (both in-place branches of Resize). -/
def sweepReinsert (hf : Nat → Nat) (s : MojoMMT) (idxs : List Nat) : MojoMMT :=
  idxs.foldl (fun acc i => if (getE (0, 0) acc.buf i).1 ≠ 0 then Reinsert hf acc i else acc) s

/-- Grow-in-place tail sweep. -/
def sweepTail (hf : Nat → Nat) (s : MojoMMT) : List Nat → MojoMMT
  | [] => s
  | i :: rest =>
    if (getE (0, 0) s.buf i).1 == 0 then s
    else sweepTail hf (Reinsert hf s i) rest

mutual

/-- MojoMultiMap::Resize, fueled. -/
def ResizeF (hf : Nat → Nat) (allocOk : Bool) : Nat → MojoMMT → Nat → Nat → MojoMMT
  | 0, s, _, _ => s
  | fuel + 1, s, ntc, ncap =>
    if s.ownsAlloc ∧ s.allocCount ≠ ncap then
      let oldBuf := s.buf
      let oldTc := s.tableCount
      let s1 : MojoMMT :=
        { s with allocCount := ncap, tableCount := ntc, activeCount := 0,
                 buf := if ncap ≠ 0 then (if allocOk then some (List.replicate ncap (0, 0)) else none)
                        else none }
      let s2 :=
        match oldBuf, s1.buf with
        | some old, some _ =>
          refillFold (fun a e => InsertF hf allocOk fuel a e.1 e.2) s1 (old.take oldTc)
        | _, _ => s1
      s2
    else if ntc < s.tableCount then
      let oldTc := s.tableCount
      sweepReinsert hf { s with tableCount := ntc } (List.range oldTc)
    else if ntc > s.tableCount then
      let oldTc := s.tableCount
      let s1 := sweepReinsert hf { s with tableCount := ntc } (List.range oldTc)
      sweepTail hf s1 (List.range' oldTc (ntc - oldTc))
    else s

/-- MojoMultiMap::Grow, fueled. -/
def GrowF (hf : Nat → Nat) (allocOk : Bool) : Nat → MojoMMT → MojoMMT
  | 0, s => s
  | fuel + 1, s =>
    if s.activeCount * 100 ≥ s.tableCount * s.growThreshold then
      let ntc0 := s.tableCount * 2
      let ncap0 := max s.allocCount ntc0
      let ncap := if ¬ s.dynamicAlloc then s.allocCount else ncap0
      let ntc := if ¬ s.dynamicAlloc then min ntc0 ncap else ntc0
      ResizeF hf allocOk fuel s ntc ncap
    else s

/-- MojoMultiMap::Insert, fueled (pair-sensitive probe; duplicate pairs are
a no-op). -/
def InsertF (hf : Nat → Nat) (allocOk : Bool) : Nat → MojoMMT → Nat → Nat → MojoMMT
  | 0, s, _, _ => s
  | fuel + 1, s, key, value =>
    if s.status ≠ Ok then s
    else if key == 0 then s
    else
      let s1 := if s.autoGrow then GrowF hf allocOk fuel s else s
      if s1.activeCount < s1.tableCount then
        let index := FindPair hf s1 key value
        if (getE (0, 0) s1.buf index).1 == 0 then
          { s1 with buf := setE s1.buf index (key, value),
                    activeCount := s1.activeCount + 1,
                    changeCount := s1.changeCount + 1 }
        else s1
      else s1

end

/-- MojoMultiMap::Shrink, fueled. -/
def ShrinkF (hf : Nat → Nat) (allocOk : Bool) (fuel : Nat) (s : MojoMMT) : MojoMMT :=
  if s.tableCount > s.tableCountMin ∧ s.activeCount * 100 < s.tableCount * s.shrinkThreshold then
    let ntc := max (s.tableCount / 2) s.tableCountMin
    let ncap0 := max ntc s.allocCountMin
    let ncap := if ¬ s.dynamicAlloc then s.allocCount else ncap0
    ResizeF hf allocOk fuel s ntc ncap
  else s

/-- Default fuel for public entry points. -/
def defFuel (s : MojoMMT) : Nat :=
  s.allocCount + s.tableCount + 2 * s.activeCount + 64

/-- MojoMultiMap::Insert public entry point (state part). -/
def Insert (hf : Nat → Nat) (allocOk : Bool) (s : MojoMMT) (key value : Nat) : MojoMMT :=
  InsertF hf allocOk (defFuel s) s key value

/-- MojoMultiMap::Insert (returned status). -/
def InsertRet (hf : Nat → Nat) (allocOk : Bool) (s : MojoMMT) (key value : Nat) : MojoStatus :=
  if s.status ≠ Ok then s.status
  else if key == 0 then InvalidArguments
  else
    let s1 := if s.autoGrow then GrowF hf allocOk (defFuel s) s else s
    if s1.activeCount < s1.tableCount then Ok else CouldNotAlloc

/-- MojoMultiMap::Remove(key) (state part): remove all pairs with the key,
then auto-shrink on success. -/
def RemoveKey (hf : Nat → Nat) (allocOk : Bool) (s : MojoMMT) (key : Nat) : MojoMMT :=
  if s.status ≠ Ok then s
  else if key ≠ 0 then
    match RemoveAll hf s key with
    | (true, s1) =>
      let s2 := { s1 with changeCount := s1.changeCount + 1 }
      if s2.autoShrink then ShrinkF hf allocOk (defFuel s2) s2 else s2
    | (false, s1) => s1
  else s

/-- MojoMultiMap::Remove(key) (returned status). -/
def RemoveKeyRet (hf : Nat → Nat) (s : MojoMMT) (key : Nat) : MojoStatus :=
  if s.status ≠ Ok then s.status
  else if key ≠ 0 then
    match RemoveAll hf s key with
    | (true, _) => Ok
    | (false, _) => NotFound
  else NotFound

/-- MojoMultiMap::Remove(key, value) (state part). -/
def RemovePair (hf : Nat → Nat) (allocOk : Bool) (s : MojoMMT) (key value : Nat) : MojoMMT :=
  if s.status ≠ Ok then s
  else if key ≠ 0 then
    match RemoveOnePair hf s key value with
    | (true, s1) =>
      let s2 := { s1 with changeCount := s1.changeCount + 1 }
      if s2.autoShrink then ShrinkF hf allocOk (defFuel s2) s2 else s2
    | (false, s1) => s1
  else s

/-- MojoMultiMap::Remove(key, value) (returned status). -/
def RemovePairRet (hf : Nat → Nat) (s : MojoMMT) (key value : Nat) : MojoStatus :=
  if s.status ≠ Ok then s.status
  else if key ≠ 0 then
    match RemoveOnePair hf s key value with
    | (true, _) => Ok
    | (false, _) => NotFound
  else NotFound

/-- MojoMultiMap::Contains(key). -/
def ContainsKey (hf : Nat → Nat) (s : MojoMMT) (key : Nat) : Bool :=
  if s.status = Ok ∧ key ≠ 0 then
    (getE (0, 0) s.buf (FindKey hf s key)).1 != 0
  else false

/-- MojoMultiMap::Contains(key, value). -/
def ContainsPair (hf : Nat → Nat) (s : MojoMMT) (key value : Nat) : Bool :=
  if s.status = Ok ∧ key ≠ 0 then
    (getE (0, 0) s.buf (FindPair hf s key value)).1 != 0
  else false

/-- MojoMultiMap::Find: the value of the first slot with the key. -/
def Find (hf : Nat → Nat) (s : MojoMMT) (key : Nat) : Nat :=
  if s.status = Ok ∧ key ≠ 0 then
    let index := FindKey hf s key
    if (getE (0, 0) s.buf index).1 ≠ 0 then (getE (0, 0) s.buf index).2 else 0
  else 0

/-- MojoMultiMap::GetCount. -/
def GetCount (s : MojoMMT) : Nat := s.activeCount

/-- MojoMultiMap::_GetFirstIndexOf. -/
def GetFirstIndexOf (hf : Nat → Nat) (s : MojoMMT) (key : Nat) : Nat :=
  if s.status = Ok ∧ key ≠ 0 then
    let index := FindKey hf s key
    if (getE (0, 0) s.buf index).1 ≠ 0 then index else s.tableCount
  else s.tableCount

/-- MojoMultiMap::_GetNextIndexOf: forward (wrapping) to the next slot with
the key, stopping at an empty slot. -/
def GetNextIndexOf (hf : Nat → Nat) (s : MojoMMT) (key index : Nat) : Nat :=
  if s.status = Ok ∧ key ≠ 0 then
    let scan := fun i => ((getE (0, 0) s.buf i).1 == 0) || ((getE (0, 0) s.buf i).1 == key)
    match (List.range' (index + 1) (s.tableCount - (index + 1))).find? scan with
    | some i => if (getE (0, 0) s.buf i).1 == 0 then s.tableCount else i
    | none =>
      match (List.range' 0 index).find? scan with
      | some i => if (getE (0, 0) s.buf i).1 == 0 then s.tableCount else i
      | none => s.tableCount
  else s.tableCount

/-- MojoMultiMap::IsFirstInRun: walk backward (wrapping); the slot is first
in its run iff an empty slot is met before another slot with the same key. -/
def IsFirstInRun (s : MojoMMT) (index : Nat) : Bool :=
  let key := (getE (0, 0) s.buf index).1
  let back1 := (List.range index).reverse
  let back2 := ((List.range' (index + 1) (s.tableCount - (index + 1))).reverse)
  match (back1 ++ back2).find?
      (fun i => (getE (0, 0) s.buf i).1 == 0 || (getE (0, 0) s.buf i).1 == key) with
  | some i => (getE (0, 0) s.buf i).1 == 0
  | none => true

/-- MojoMultiMap::_GetNextIndex: next slot after index that is occupied and
first in its run (whole-container enumeration step). -/
def GetNextIndex (s : MojoMMT) (index : Nat) : Nat :=
  match (List.range' (index + 1) (s.tableCount - (index + 1))).find?
      (fun i => (getE (0, 0) s.buf i).1 != 0 && IsFirstInRun s i) with
  | some i => i
  | none => s.tableCount

/-- MojoMultiMap::_GetFirstIndex, i.e. _GetNextIndex(-1): the first slot
that is occupied and first in its run. -/
def GetFirstIndex (s : MojoMMT) : Nat :=
  match (List.range s.tableCount).find?
      (fun i => (getE (0, 0) s.buf i).1 != 0 && IsFirstInRun s i) with
  | some i => i
  | none => s.tableCount

/-- Indices visited by the whole-container enumeration cursor
(_GetFirstIndex then repeated _GetNextIndex while _IsIndexValid); the
cursor strictly increases, so tableCount + 1 fuel always suffices. -/
def enumIndicesGo (s : MojoMMT) : Nat → Nat → List Nat
  | _, 0 => []
  | i, fuel + 1 =>
    if s.status = Ok ∧ i < s.tableCount then
      i :: enumIndicesGo s (GetNextIndex s i) fuel
    else []

/-- The index list of a full enumeration. -/
def enumIndices (s : MojoMMT) : List Nat :=
  enumIndicesGo s (GetFirstIndex s) (s.tableCount + 1)

/-- The keys pushed by MojoMultiMap::Enumerate with no limit set: the key
of each slot the cursor visits. -/
def enumKeys (s : MojoMMT) : List Nat :=
  (enumIndices s).map (fun i => (getE (0, 0) s.buf i).1)

/-- Common generalization of _GetFirstIndex and _GetNextIndex: the first
slot at or after position m that is occupied and first in its run, or
tableCount when there is none (_GetFirstIndex is m = 0, _GetNextIndex i is
m = i + 1). -/
def cursorFrom (s : MojoMMT) (m : Nat) : Nat :=
  match (List.range' m (s.tableCount - m)).find?
      (fun i => (getE (0, 0) s.buf i).1 != 0 && IsFirstInRun s i) with
  | some i => i
  | none => s.tableCount

/-- The uninitialized state. -/
def initState : MojoMMT :=
  { buf := none, allocCount := 0, tableCount := 0, activeCount := 0,
    changeCount := 0, status := NotInitialized,
    allocCountMin := 0, tableCountMin := 0, growThreshold := 0, shrinkThreshold := 0,
    autoGrow := false, autoShrink := false, dynamicAlloc := false, ownsAlloc := false }

/-- MojoMultiMap::Create with a dynamic allocator. -/
def Create (hf : Nat → Nat) (allocOk : Bool)
    (allocCountMin tableCountMin growThreshold shrinkThreshold : Nat)
    (autoGrow autoShrink dynamicAlloc : Bool) : MojoMMT :=
  if allocCountMin ≤ 1 ∨ tableCountMin ≤ 1 ∨ growThreshold ≤ shrinkThreshold * 2 then
    { initState with status := InvalidArguments }
  else
    let s : MojoMMT :=
      { buf := none, allocCount := 0, tableCount := 0, activeCount := 0,
        changeCount := 0, status := Ok,
        allocCountMin := allocCountMin, tableCountMin := tableCountMin,
        growThreshold := growThreshold, shrinkThreshold := shrinkThreshold,
        autoGrow := autoGrow, autoShrink := autoShrink,
        dynamicAlloc := dynamicAlloc, ownsAlloc := true }
    let s1 := ResizeF hf allocOk 64 s tableCountMin (max allocCountMin tableCountMin)
    if s1.buf = none then { s1 with status := CouldNotAlloc } else s1

end MojoMMT

/-- State of a MojoMap (one-to-one open-addressed hash table).
Modelled from the spec: MojoMap.h is not among the provided sources; the
spec describes the map as identical to the set engine except that slots
carry a value, probing keys on the key alone, insert overwriting the value
at an existing key, and remove returning the previously associated value
(or the not-found value, here 0). -/
structure MojoMapT where
  buf : Option (List KV)
  allocCount : Nat
  tableCount : Nat
  activeCount : Nat
  changeCount : Nat
  status : MojoStatus
  allocCountMin : Nat
  tableCountMin : Nat
  growThreshold : Nat
  shrinkThreshold : Nat
  autoGrow : Bool
  autoShrink : Bool
  dynamicAlloc : Bool
  ownsAlloc : Bool
deriving DecidableEq

namespace MojoMapT

/-- Modelled from the spec: the map probe keys on the key alone (as the set
engine does). -/
def FindEmptyOrMatching (hf : Nat → Nat) (s : MojoMapT) (key : Nat) : Nat :=
  femIdx s.tableCount (hf key % s.tableCount)
    (fun i => (getE (0, 0) s.buf i).1 == 0 || (getE (0, 0) s.buf i).1 == key)

/-- Modelled from the spec: Reinsert moves the pair at index to its probe
position, probing on the key. -/
def Reinsert (hf : Nat → Nat) (s : MojoMapT) (index : Nat) : MojoMapT :=
  let e := getE (0, 0) s.buf index
  let ni := FindEmptyOrMatching hf s e.1
  if ni ≠ index then
    { s with buf := setE (setE s.buf ni e) index (0, 0) }
  else s

/-- Fix-up after a removal, as in the set engine. -/
def removeFixupGo (hf : Nat → Nat) (s : MojoMapT) : List Nat → MojoMapT
  | [] => s
  | i :: rest =>
    if (getE (0, 0) s.buf i).1 == 0 then s
    else removeFixupGo hf (Reinsert hf s i) rest

/-- Modelled from the spec: remove the key, returning whether it was there
and the value previously associated (0 when absent). -/
def RemoveOne (hf : Nat → Nat) (s : MojoMapT) (key : Nat) : Bool × Nat × MojoMapT :=
  if key == 0 then (false, 0, s)
  else
    let index := FindEmptyOrMatching hf s key
    if (getE (0, 0) s.buf index).1 == 0 then (false, 0, s)
    else
      let old := (getE (0, 0) s.buf index).2
      let s1 := { s with buf := setE s.buf index (0, 0), activeCount := s.activeCount - 1 }
      let idxs := List.range' (index + 1) (s.tableCount - (index + 1)) ++ List.range' 0 index
      (true, old, removeFixupGo hf s1 idxs)

/-- Refill fold for the realloc branch of the map resize. -/
def refillFold (ins : MojoMapT → KV → MojoMapT) (s : MojoMapT) (old : List KV) : MojoMapT :=
  old.foldl (fun acc e => if e.1 ≠ 0 then ins acc e else acc) s

/-- In-place resize sweep. -/
def sweepReinsert (hf : Nat → Nat) (s : MojoMapT) (idxs : List Nat) : MojoMapT :=
  idxs.foldl (fun acc i => if (getE (0, 0) acc.buf i).1 ≠ 0 then Reinsert hf acc i else acc) s

/-- Grow-in-place tail sweep. -/
def sweepTail (hf : Nat → Nat) (s : MojoMapT) : List Nat → MojoMapT
  | [] => s
  | i :: rest =>
    if (getE (0, 0) s.buf i).1 == 0 then s
    else sweepTail hf (Reinsert hf s i) rest

mutual

/-- Map resize, fueled; modelled from the spec after the set engine. -/
def ResizeF (hf : Nat → Nat) (allocOk : Bool) : Nat → MojoMapT → Nat → Nat → MojoMapT
  | 0, s, _, _ => s
  | fuel + 1, s, ntc, ncap =>
    if s.ownsAlloc ∧ s.allocCount ≠ ncap then
      let oldBuf := s.buf
      let oldTc := s.tableCount
      let s1 : MojoMapT :=
        { s with allocCount := ncap, tableCount := ntc, activeCount := 0,
                 buf := if ncap ≠ 0 then (if allocOk then some (List.replicate ncap (0, 0)) else none)
                        else none }
      let s2 :=
        match oldBuf, s1.buf with
        | some old, some _ =>
          refillFold (fun a e => InsertF hf allocOk fuel a e.1 e.2) s1 (old.take oldTc)
        | _, _ => s1
      s2
    else if ntc < s.tableCount then
      let oldTc := s.tableCount
      sweepReinsert hf { s with tableCount := ntc } (List.range oldTc)
    else if ntc > s.tableCount then
      let oldTc := s.tableCount
      let s1 := sweepReinsert hf { s with tableCount := ntc } (List.range oldTc)
      sweepTail hf s1 (List.range' oldTc (ntc - oldTc))
    else s

/-- Map grow, fueled. -/
def GrowF (hf : Nat → Nat) (allocOk : Bool) : Nat → MojoMapT → MojoMapT
  | 0, s => s
  | fuel + 1, s =>
    if s.activeCount * 100 ≥ s.tableCount * s.growThreshold then
      let ntc0 := s.tableCount * 2
      let ncap0 := max s.allocCount ntc0
      let ncap := if ¬ s.dynamicAlloc then s.allocCount else ncap0
      let ntc := if ¬ s.dynamicAlloc then min ntc0 ncap else ntc0
      ResizeF hf allocOk fuel s ntc ncap
    else s

/-- Modelled from the spec: map insert writes the pair into an empty probe
slot, or overwrites the value at an existing key (bumping the change count
when the value actually changes). -/
def InsertF (hf : Nat → Nat) (allocOk : Bool) : Nat → MojoMapT → Nat → Nat → MojoMapT
  | 0, s, _, _ => s
  | fuel + 1, s, key, value =>
    if s.status ≠ Ok then s
    else if key == 0 then s
    else
      let s1 := if s.autoGrow then GrowF hf allocOk fuel s else s
      if s1.activeCount < s1.tableCount then
        let index := FindEmptyOrMatching hf s1 key
        if (getE (0, 0) s1.buf index).1 == 0 then
          { s1 with buf := setE s1.buf index (key, value),
                    activeCount := s1.activeCount + 1,
                    changeCount := s1.changeCount + 1 }
        else if (getE (0, 0) s1.buf index).2 ≠ value then
          { s1 with buf := setE s1.buf index (key, value),
                    changeCount := s1.changeCount + 1 }
        else s1
      else s1

end

/-- Map shrink, fueled. -/
def ShrinkF (hf : Nat → Nat) (allocOk : Bool) (fuel : Nat) (s : MojoMapT) : MojoMapT :=
  if s.tableCount > s.tableCountMin ∧ s.activeCount * 100 < s.tableCount * s.shrinkThreshold then
    let ntc := max (s.tableCount / 2) s.tableCountMin
    let ncap0 := max ntc s.allocCountMin
    let ncap := if ¬ s.dynamicAlloc then s.allocCount else ncap0
    ResizeF hf allocOk fuel s ntc ncap
  else s

/-- Default fuel for the public entry points. -/
def defFuel (s : MojoMapT) : Nat :=
  s.allocCount + s.tableCount + 2 * s.activeCount + 64

/-- Map insert (state part). -/
def Insert (hf : Nat → Nat) (allocOk : Bool) (s : MojoMapT) (key value : Nat) : MojoMapT :=
  InsertF hf allocOk (defFuel s) s key value

/-- Map insert (returned status). -/
def InsertRet (hf : Nat → Nat) (allocOk : Bool) (s : MojoMapT) (key value : Nat) : MojoStatus :=
  if s.status ≠ Ok then s.status
  else if key == 0 then InvalidArguments
  else
    let s1 := if s.autoGrow then GrowF hf allocOk (defFuel s) s else s
    if s1.activeCount < s1.tableCount then Ok else CouldNotAlloc

/-- Map remove (state part). -/
def Remove (hf : Nat → Nat) (allocOk : Bool) (s : MojoMapT) (key : Nat) : MojoMapT :=
  if s.status ≠ Ok then s
  else if key ≠ 0 then
    match RemoveOne hf s key with
    | (true, _, s1) =>
      let s2 := { s1 with changeCount := s1.changeCount + 1 }
      if s2.autoShrink then ShrinkF hf allocOk (defFuel s2) s2 else s2
    | (false, _, _) => s
  else s

/-- Map remove (returned previous value, or 0 when not found). -/
def RemoveRetVal (hf : Nat → Nat) (s : MojoMapT) (key : Nat) : Nat :=
  if s.status ≠ Ok then 0
  else if key ≠ 0 then
    match RemoveOne hf s key with
    | (true, old, _) => old
    | (false, _, _) => 0
  else 0

/-- Map contains. -/
def Contains (hf : Nat → Nat) (s : MojoMapT) (key : Nat) : Bool :=
  if s.status = Ok ∧ key ≠ 0 then
    (getE (0, 0) s.buf (FindEmptyOrMatching hf s key)).1 != 0
  else false

/-- Map find. -/
def Find (hf : Nat → Nat) (s : MojoMapT) (key : Nat) : Nat :=
  if s.status = Ok ∧ key ≠ 0 then
    let index := FindEmptyOrMatching hf s key
    if (getE (0, 0) s.buf index).1 ≠ 0 then (getE (0, 0) s.buf index).2 else 0
  else 0

/-- Map count. -/
def GetCount (s : MojoMapT) : Nat := s.activeCount

/-- The uninitialized state. -/
def initState : MojoMapT :=
  { buf := none, allocCount := 0, tableCount := 0, activeCount := 0,
    changeCount := 0, status := NotInitialized,
    allocCountMin := 0, tableCountMin := 0, growThreshold := 0, shrinkThreshold := 0,
    autoGrow := false, autoShrink := false, dynamicAlloc := false, ownsAlloc := false }

/-- Map create with a dynamic allocator. -/
def Create (hf : Nat → Nat) (allocOk : Bool)
    (allocCountMin tableCountMin growThreshold shrinkThreshold : Nat)
    (autoGrow autoShrink dynamicAlloc : Bool) : MojoMapT :=
  if allocCountMin ≤ 1 ∨ tableCountMin ≤ 1 ∨ growThreshold ≤ shrinkThreshold * 2 then
    { initState with status := InvalidArguments }
  else
    let s : MojoMapT :=
      { buf := none, allocCount := 0, tableCount := 0, activeCount := 0,
        changeCount := 0, status := Ok,
        allocCountMin := allocCountMin, tableCountMin := tableCountMin,
        growThreshold := growThreshold, shrinkThreshold := shrinkThreshold,
        autoGrow := autoGrow, autoShrink := autoShrink,
        dynamicAlloc := dynamicAlloc, ownsAlloc := true }
    let s1 := ResizeF hf allocOk 64 s tableCountMin (max allocCountMin tableCountMin)
    if s1.buf = none then { s1 with status := CouldNotAlloc } else s1

end MojoMapT

/-- State of a MojoRelation: a child-to-parent map and a parent-to-child
multimap. -/
structure MojoRelT where
  c2p : MojoMapT
  p2c : MojoMMT
deriving DecidableEq

namespace MojoRelT

/-- MojoRelation::GetStatus: multimap status first, then map status. -/
def GetStatus (r : MojoRelT) : MojoStatus :=
  if r.p2c.status ≠ Ok then r.p2c.status else r.c2p.status

/-- MojoRelation::RemoveChild (state part): look up and remove the child
from the map, then remove the reverse pair from the multimap. -/
def RemoveChild (hf : Nat → Nat) (allocOk : Bool) (r : MojoRelT) (child : Nat) : MojoRelT :=
  if child ≠ 0 then
    let oldParent := MojoMapT.RemoveRetVal hf r.c2p child
    let c2p1 := MojoMapT.Remove hf allocOk r.c2p child
    if oldParent ≠ 0 then
      { c2p := c2p1, p2c := MojoMMT.RemovePair hf allocOk r.p2c oldParent child }
    else { r with c2p := c2p1 }
  else r

/-- MojoRelation::RemoveChild (returned status). -/
def RemoveChildRet (hf : Nat → Nat) (r : MojoRelT) (child : Nat) : MojoStatus :=
  if child ≠ 0 then
    let oldParent := MojoMapT.RemoveRetVal hf r.c2p child
    if oldParent ≠ 0 then
      MojoMMT.RemovePairRet hf r.p2c oldParent child
    else NotFound
  else NotFound

/-- MojoRelation::InsertChildParent (state part): a null parent removes the
child; otherwise remove the child, insert into the map, and on success
insert the reverse pair into the multimap. -/
def InsertChildParent (hf : Nat → Nat) (allocOk : Bool) (r : MojoRelT)
    (child parent : Nat) : MojoRelT :=
  if parent == 0 then RemoveChild hf allocOk r child
  else if child == 0 then r
  else
    let r1 := RemoveChild hf allocOk r child
    let st := MojoMapT.InsertRet hf allocOk r1.c2p child parent
    let c2p1 := MojoMapT.Insert hf allocOk r1.c2p child parent
    if st = Ok then
      { c2p := c2p1, p2c := MojoMMT.Insert hf allocOk r1.p2c parent child }
    else { r1 with c2p := c2p1 }

/-- MojoRelation::InsertChildParent (returned status). -/
def InsertChildParentRet (hf : Nat → Nat) (allocOk : Bool) (r : MojoRelT)
    (child parent : Nat) : MojoStatus :=
  if parent == 0 then RemoveChildRet hf r child
  else if child == 0 then InvalidArguments
  else
    let r1 := RemoveChild hf allocOk r child
    let st := MojoMapT.InsertRet hf allocOk r1.c2p child parent
    if st = Ok then
      MojoMMT.InsertRet hf allocOk r1.p2c parent child
    else st

/-- MojoRelation::Contains: the child is in the map. -/
def Contains (hf : Nat → Nat) (r : MojoRelT) (child : Nat) : Bool :=
  MojoMapT.Contains hf r.c2p child

/-- MojoRelation::ContainsParent: the parent is in the multimap. -/
def ContainsParent (hf : Nat → Nat) (r : MojoRelT) (parent : Nat) : Bool :=
  MojoMMT.ContainsKey hf r.p2c parent

/-- MojoRelation::FindParent. -/
def FindParent (hf : Nat → Nat) (r : MojoRelT) (child : Nat) : Nat :=
  MojoMapT.Find hf r.c2p child

/-- MojoRelation::GetCount. -/
def GetCount (r : MojoRelT) : Nat := r.c2p.activeCount

/-- MojoRelation::_GetChangeCount: the change count of the child-to-parent
map only. -/
def GetChangeCount (r : MojoRelT) : Nat := r.c2p.changeCount

end MojoRelT

/-! ## Invariants and specification-side predicates -/

/-- Cyclic forward distance from a to b in a table of size n (for a, b in
range, the number of forward steps from a that reach b). -/
def dCyc (n a b : Nat) : Nat := (b + n - a) % n

/-- Step count of the first slot, in cyclic probe order from start, whose
index satisfies good; none when no slot does. -/
def cycFirst (tc start : Nat) (good : Nat → Bool) : Option Nat :=
  (List.range tc).find? (fun t => good ((start + t) % tc))

namespace MojoSetT

/-- The key stored at slot i. -/
def slotAt (s : MojoSetT) (i : Nat) : Nat := getE 0 s.buf i

/-- The natural (home) position of key k. -/
def homeOf (hf : Nat → Nat) (s : MojoSetT) (k : Nat) : Nat := hf k % s.tableCount

/-- The buffer exists and matches the recorded capacity, and the hashed
range fits in it. -/
def BufWF (s : MojoSetT) : Prop :=
  s.buf.isSome ∧ (s.buf.getD []).length = s.allocCount ∧ s.tableCount ≤ s.allocCount

/-- active_count equals the number of occupied slots of the hashed range. -/
def CountWF (s : MojoSetT) : Prop :=
  s.activeCount = (List.range s.tableCount).countP (fun i => slotAt s i != 0)

/-- Every occupied slot is reachable from its key's home by walking only
occupied slots (linear probing never crosses an empty slot). -/
def PathsWF (hf : Nat → Nat) (s : MojoSetT) : Prop :=
  ∀ i < s.tableCount, slotAt s i ≠ 0 →
    ∀ t < dCyc s.tableCount (homeOf hf s (slotAt s i)) i,
      slotAt s ((homeOf hf s (slotAt s i) + t) % s.tableCount) ≠ 0

/-- No two occupied slots hold the same key. -/
def DistinctWF (s : MojoSetT) : Prop :=
  ∀ i < s.tableCount, ∀ j < s.tableCount,
    slotAt s i ≠ 0 → slotAt s j ≠ 0 → i ≠ j → slotAt s i ≠ slotAt s j

/-- Slots beyond the hashed range are empty. -/
def TailWF (s : MojoSetT) : Prop :=
  ∀ i, s.tableCount ≤ i → slotAt s i = 0

/-- The table representation invariant of a set. -/
def WF (hf : Nat → Nat) (s : MojoSetT) : Prop :=
  BufWF s ∧ CountWF s ∧ PathsWF hf s ∧ DistinctWF s ∧ TailWF s

/-- The set of keys stored in the table. -/
def keys (s : MojoSetT) : List Nat :=
  ((List.range s.tableCount).map (slotAt s)).filter (fun k => k != 0)

end MojoSetT

namespace MojoMMT

/-- The pair stored at slot i. -/
def slotAt (s : MojoMMT) (i : Nat) : KV := getE (0, 0) s.buf i

/-- The key stored at slot i. -/
def keyAt (s : MojoMMT) (i : Nat) : Nat := (slotAt s i).1

/-- The home position of key k. -/
def homeOf (hf : Nat → Nat) (s : MojoMMT) (k : Nat) : Nat := hf k % s.tableCount

/-- Buffer well-formedness. -/
def BufWF (s : MojoMMT) : Prop :=
  s.buf.isSome ∧ (s.buf.getD []).length = s.allocCount ∧ s.tableCount ≤ s.allocCount

/-- active_count equals the number of occupied slots. -/
def CountWF (s : MojoMMT) : Prop :=
  s.activeCount = (List.range s.tableCount).countP (fun i => keyAt s i != 0)

/-- Every occupied slot is reachable from its key's home through occupied
slots only. -/
def PathsWF (hf : Nat → Nat) (s : MojoMMT) : Prop :=
  ∀ i < s.tableCount, keyAt s i ≠ 0 →
    ∀ t < dCyc s.tableCount (homeOf hf s (keyAt s i)) i,
      keyAt s ((homeOf hf s (keyAt s i) + t) % s.tableCount) ≠ 0

/-- No two occupied slots hold the same (key, value) pair. -/
def DistinctWF (s : MojoMMT) : Prop :=
  ∀ i < s.tableCount, ∀ j < s.tableCount,
    keyAt s i ≠ 0 → keyAt s j ≠ 0 → i ≠ j → slotAt s i ≠ slotAt s j

/-- Slots beyond the hashed range are empty. -/
def TailWF (s : MojoMMT) : Prop :=
  ∀ i, s.tableCount ≤ i → slotAt s i = (0, 0)

/-- The table representation invariant of a multimap. -/
def WF (hf : Nat → Nat) (s : MojoMMT) : Prop :=
  BufWF s ∧ CountWF s ∧ PathsWF hf s ∧ DistinctWF s ∧ TailWF s

/-- Does slot i hold key k. -/
def isKeyAt (s : MojoMMT) (k i : Nat) : Bool := keyAt s i == k

/-- Specification-side predicate, following the claim's words: the slots
holding key k form exactly one contiguous wrap-around run (either they
fill the whole table, or exactly one k-slot is followed cyclically by a
non-k slot). -/
def specClusterContiguous (s : MojoMMT) (k : Nat) : Bool :=
  let ks := (List.range s.tableCount).filter (isKeyAt s k)
  ks.length == s.tableCount ||
    ((List.range s.tableCount).countP
      (fun i => isKeyAt s k i && !(isKeyAt s k ((i + 1) % s.tableCount)))) == 1

/-- The weaker cluster property the code actually maintains: the first
probe slot of k holds k, and every slot holding k is reached from it by
walking forward (wrapping) over occupied slots only, so all k-slots lie
inside one contiguous wrap-around run of occupied slots (slots of other
keys may be interleaved). -/
def WeakCluster (hf : Nat → Nat) (s : MojoMMT) (k : Nat) : Prop :=
  (∃ i < s.tableCount, keyAt s i = k) →
    keyAt s (FindKey hf s k) = k ∧
    ∀ i < s.tableCount, keyAt s i = k →
      ∀ t < dCyc s.tableCount (FindKey hf s k) i,
        keyAt s ((FindKey hf s k + t) % s.tableCount) ≠ 0

/-- The pairs stored in the table. -/
def pairs (s : MojoMMT) : List KV :=
  ((List.range s.tableCount).map (slotAt s)).filter (fun e => e.1 != 0)

/-- Pure effect of the removeScan loop: walk d slots forward from i
(wrapping), clearing those whose pair satisfies hit (used to characterize
removeScan, whose own recursion also decides when to stop). -/
def clearHits (hit : KV → Bool) : MojoMMT → Nat → Nat → MojoMMT
  | s, _, 0 => s
  | s, i, d + 1 =>
    let s1 :=
      if hit (getE (0, 0) s.buf i) then
        { s with buf := setE s.buf i (0, 0), activeCount := s.activeCount - 1 }
      else s
    clearHits hit s1 ((i + 1) % s.tableCount) d

/-- Slot p lies in the cyclic window of offsets [a, b) from f. -/
def InArc (tc f a b p : Nat) : Prop :=
  a ≤ dCyc tc f p ∧ dCyc tc f p < b

/-- Walking forward from h, every slot strictly before p is occupied (the
per-slot body of the paths invariant, with the start position explicit). -/
def CurPathAt (s : MojoMMT) (h p : Nat) : Prop :=
  ∀ u < dCyc s.tableCount h p, keyAt s ((h + u) % s.tableCount) ≠ 0

/-- Weak probe path: every slot strictly before p from h is occupied or
lies in the scanned stretch of offsets [0, cnt) from f. -/
def WeakPathAt (s : MojoMMT) (f cnt h p : Nat) : Prop :=
  ∀ u < dCyc s.tableCount h p,
    keyAt s ((h + u) % s.tableCount) ≠ 0 ∨
    dCyc s.tableCount f ((h + u) % s.tableCount) < cnt

/-- Invariant of the FixUp sweep after a removal scan that started at f,
covered cnt occupied slots and stopped at the empty slot f + cnt, with the
slots at offsets [1, t) already processed: the table shape invariants
hold, the boundary slot is empty, every occupied slot outside the
unprocessed window keeps a full probe path, and every occupied slot still
waiting in the window keeps at least a weak probe path. -/
def FixInv (hf : Nat → Nat) (f cnt t : Nat) (s : MojoMMT) : Prop :=
  f < s.tableCount ∧ cnt < s.tableCount ∧
  BufWF s ∧ CountWF s ∧ DistinctWF s ∧ TailWF s ∧
  keyAt s ((f + cnt) % s.tableCount) = 0 ∧
  (∀ p < s.tableCount, keyAt s p ≠ 0 → ¬ InArc s.tableCount f t cnt p →
    CurPathAt s (homeOf hf s (keyAt s p)) p) ∧
  (∀ p < s.tableCount, keyAt s p ≠ 0 → InArc s.tableCount f t cnt p →
    WeakPathAt s f cnt (homeOf hf s (keyAt s p)) p)

/-- Executable check of the pairwise-distinct-slot invariant. -/
def distinctChk (s : MojoMMT) : Bool :=
  (List.range s.tableCount).all fun i =>
    (List.range s.tableCount).all fun j =>
      !(keyAt s i != 0) || !(keyAt s j != 0) || i == j || slotAt s i != slotAt s j

end MojoMMT

/-! ## Theorems -/

open MojoStatus

/-- C1: the claim states that for every sequence of Insert/Remove/Contains
operations on an ok-status MojoSet with non-null keys, Contains(k) is true
iff an un-removed Insert(k) occurred.  The code violates this: with the
default-style configuration (alloc_count_min 2, table_count_min 2,
grow_threshold 80, shrink_threshold 30, auto grow/shrink, dynamic
allocation) and identity hashing, after Insert(1); Insert(2) (both
returning ok) the table is completely full, FindEmptyOrMatching(3) falls
through to its trailing return 0, and Contains(3) reports true although 3
was never inserted; Remove(3) likewise returns ok and destroys the key
stored in slot 0 (key 2). -/
theorem C1_probe_correctness_code_bug :
    let s0 : MojoSetT := MojoSetT.Create id true 2 2 80 30 true true true
    let s1 := MojoSetT.Insert id true s0 1
    let s2 := MojoSetT.Insert id true s1 2
    s0.status = Ok ∧
    MojoSetT.InsertRet id true s0 1 = Ok ∧
    MojoSetT.InsertRet id true s1 2 = Ok ∧
    MojoSetT.Contains id s2 1 = true ∧
    MojoSetT.Contains id s2 2 = true ∧
    MojoSetT.Contains id s2 3 = true ∧
    MojoSetT.RemoveRet id s2 3 = Ok ∧
    MojoSetT.Contains id (MojoSetT.Remove id true s2 3) 2 = false := by decide

/-- C2 counterexample: the slots holding one key need not form one
contiguous wrap-around run.  In a table of size 8 with identity hashing,
inserting (1,10), (9,30), (1,20) places key 1 at slots 1 and 3 with key 9
between them (the pair-sensitive insert probe passes the foreign pair), so
the claimed cluster invariant is already false after three inserts. -/
theorem C2_contiguous_cluster_counterexample :
    let m0 : MojoMMT := MojoMMT.Create id true 2 8 80 30 true true true
    let m1 := MojoMMT.Insert id true m0 1 10
    let m2 := MojoMMT.Insert id true m1 9 30
    let m3 := MojoMMT.Insert id true m2 1 20
    m0.status = Ok ∧
    m3.buf = some [(0,0), (1,10), (9,30), (1,20), (0,0), (0,0), (0,0), (0,0)] ∧
    MojoMMT.ContainsKey id m3 1 = true ∧
    MojoMMT.specClusterContiguous m3 1 = false := by decide

/-- C3: the claim (with the spec) requires the child-to-parent insert to be
rolled back when the parent-to-child multimap insert fails.  The code has
no rollback: from a consistent relation whose multimap is full while its
map has room (growth is inert because grow_threshold 201 is never
reached), InsertChildParent(3,13) returns could-not-alloc yet leaves
(3,13) in the child-to-parent map with no reverse edge in the multimap
(whose buffer is unchanged). -/
theorem C3_insert_rollback_code_bug :
    let m : MojoMapT := ⟨some [(0,0),(1,11),(2,12),(0,0)], 4, 4, 2, 2, Ok, 2, 2, 201, 100, true, true, true, true⟩
    let mm : MojoMMT := ⟨some [(12,2),(11,1)], 2, 2, 2, 2, Ok, 2, 2, 201, 100, true, true, true, true⟩
    let r : MojoRelT := ⟨m, mm⟩
    let r2 := MojoRelT.InsertChildParent id true r 3 13
    (MojoRelT.GetStatus r = Ok ∧
     MojoRelT.Contains id r 1 = true ∧ MojoRelT.FindParent id r 1 = 11 ∧
     MojoRelT.Contains id r 2 = true ∧ MojoRelT.FindParent id r 2 = 12 ∧
     MojoMMT.ContainsPair id r.p2c 11 1 = true ∧
     MojoMMT.ContainsPair id r.p2c 12 2 = true ∧
     r.c2p.activeCount = 2 ∧ r.p2c.activeCount = 2) ∧
    MojoRelT.InsertChildParentRet id true r 3 13 = CouldNotAlloc ∧
    (MojoMapT.Contains id r2.c2p 3 = true ∧ MojoRelT.FindParent id r2 3 = 13) ∧
    r2.p2c.buf = some [(12,2),(11,1)] := by decide

/-- C4: the claim states that every successfully completing relation
operation preserves the cross-invariant.  It does not: from a consistent
relation (children 1 maps to 7 and 2 maps to 8 in both directions) whose
child-to-parent map is completely full, InsertChildParent(3,9) returns ok,
but the internal RemoveChild(3) falls into the full-table probe fallback
and silently deletes child 2 from the map while (8,2) stays in the
multimap: afterwards the map holds exactly (3,9) and (1,7) (child 2 gone)
while the multimap still holds (8,2), and the two counts differ (2 vs 3). -/
theorem C4_cross_invariant_code_bug :
    let m : MojoMapT := ⟨some [(2,8),(1,7)], 2, 2, 2, 2, Ok, 2, 2, 80, 30, true, true, true, true⟩
    let mm : MojoMMT := ⟨some [(8,2),(0,0),(0,0),(7,1)], 4, 4, 2, 2, Ok, 2, 2, 80, 30, true, true, true, true⟩
    let r : MojoRelT := ⟨m, mm⟩
    let r2 := MojoRelT.InsertChildParent id true r 3 9
    (MojoRelT.GetStatus r = Ok ∧
     MojoRelT.Contains id r 1 = true ∧ MojoRelT.Contains id r 2 = true ∧
     MojoRelT.FindParent id r 1 = 7 ∧ MojoRelT.FindParent id r 2 = 8 ∧
     MojoMMT.ContainsPair id r.p2c 7 1 = true ∧ MojoMMT.ContainsPair id r.p2c 8 2 = true ∧
     r.c2p.activeCount = 2 ∧ r.p2c.activeCount = 2) ∧
    MojoRelT.InsertChildParentRet id true r 3 9 = Ok ∧
    (r2.c2p.buf = some [(3,9),(1,7)] ∧
     MojoMMT.ContainsPair id r2.p2c 8 2 = true ∧
     r2.c2p.activeCount = 2 ∧ r2.p2c.activeCount = 3) := by decide

/-- C5 counterexample: on a completely full multimap table (reachable with
grow_threshold 201, which Create accepts), a key with two pairs is never
first-in-run from IsFirstInRun's viewpoint, so whole-container enumeration
visits no slot of that key at all: after inserting (1,10) and (1,20) into
a table of size 2, the container holds two pairs of key 1 but Enumerate
pushes nothing. -/
theorem C5_enumeration_counterexample :
    let m0 : MojoMMT := MojoMMT.Create id true 2 2 201 100 true true true
    let m1 := MojoMMT.Insert id true m0 1 10
    let m2 := MojoMMT.Insert id true m1 1 20
    m0.status = Ok ∧
    m2.buf = some [(1,20), (1,10)] ∧
    MojoMMT.ContainsKey id m2 1 = true ∧
    m2.activeCount = 2 ∧
    MojoMMT.enumKeys m2 = [] := by decide

/-- C6: the claim states that a mutation during which an allocation fails
returns cannot-allocate and leaves the observable contents unchanged.  The
code instead loses the container's contents: growing a set to keys
{1, 2, 3} and then removing until the auto-shrink resize allocates (and
the allocator returns NULL), Remove(2) returns ok (not cannot-allocate),
the old buffer is freed, the fresh buffer is NULL, and the count drops
from 2 to 0 with status still ok (key 1 is gone). -/
theorem C6_alloc_failure_code_bug :
    let s0 : MojoSetT := MojoSetT.Create id true 2 2 80 30 true true true
    let s1 := MojoSetT.Insert id true s0 1
    let s2 := MojoSetT.Insert id true s1 2
    let s3 := MojoSetT.Insert id true s2 3
    let s4 := MojoSetT.Remove id true s3 3
    let s5 := MojoSetT.Remove id false s4 2
    (s4.status = Ok ∧ s4.activeCount = 2 ∧ MojoSetT.Contains id s4 1 = true) ∧
    MojoSetT.RemoveRet id s4 2 = Ok ∧
    (s5.buf = none ∧ s5.activeCount = 0 ∧ s5.status = Ok) := by decide

/-- C8 counterexample: the relation's change count does not equal the sum
of the change counts of its two sub-containers; after one
InsertChildParent both sub-containers have change count 1 (sum 2) while
_GetChangeCount returns only the child-to-parent map's counter, 1. -/
theorem C8_change_count_sum_counterexample :
    let m0 : MojoMapT := MojoMapT.Create id true 2 2 80 30 true true true
    let mm0 := MojoMMT.Create id true 2 2 80 30 true true true
    let r0 : MojoRelT := ⟨m0, mm0⟩
    let r1 := MojoRelT.InsertChildParent id true r0 1 7
    MojoRelT.GetStatus r1 = Ok ∧
    r1.c2p.changeCount = 1 ∧ r1.p2c.changeCount = 1 ∧
    MojoRelT.GetChangeCount r1 = 1 ∧
    MojoRelT.GetChangeCount r1 ≠ r1.c2p.changeCount + r1.p2c.changeCount := by decide

/-- C9 counterexample: Insert(2); Insert(2) does not leave the set in the
same state as Insert(2) once: from the set {1, 2} at table size 2, the
second insert's auto-grow crosses the 80 percent threshold and resizes the
table to 4 (also bumping the change count during the refill), so the two
states differ although the stored keys are the same. -/
theorem C9_insert_idempotent_counterexample :
    let s0 : MojoSetT := MojoSetT.Create id true 2 2 80 30 true true true
    let s1 := MojoSetT.Insert id true s0 1
    let s2 := MojoSetT.Insert id true s1 2
    let d := MojoSetT.Insert id true s2 2
    s2.status = Ok ∧ MojoSetT.InsertRet id true s1 2 = Ok ∧
    MojoSetT.InsertRet id true s2 2 = Ok ∧
    d ≠ s2 ∧ d.tableCount = 4 ∧ s2.tableCount = 2 := by decide

/-- C10: Contains returns false without probing whenever the key is
hash-null or the container status is not ok, for both MojoSet and
MojoMultiMap (the guard in front of the probe short-circuits to false). -/
theorem C10_contains_guard (hf : Nat → Nat) (s : MojoSetT) (m : MojoMMT) (k : Nat)
    (h : (s.status ≠ Ok ∧ m.status ≠ Ok) ∨ k = 0) :
    MojoSetT.Contains hf s k = false ∧ MojoMMT.ContainsKey hf m k = false := by
  constructor
  · unfold MojoSetT.Contains
    rw [if_neg]
    rintro ⟨h1, h2⟩
    rcases h with ⟨hs, _⟩ | hk
    · exact hs h1
    · exact h2 hk
  · unfold MojoMMT.ContainsKey
    rw [if_neg]
    rintro ⟨h1, h2⟩
    rcases h with ⟨_, hm⟩ | hk
    · exact hm h1
    · exact h2 hk

/-- Witness for C10 at a concrete input: a not-yet-created set and multimap
with key 5, and a created pair with the null key 0. -/
theorem C10_contains_guard_witness :
    (MojoSetT.initState.status ≠ Ok ∧ MojoMMT.initState.status ≠ Ok) ∧
    MojoSetT.Contains id MojoSetT.initState 5 = false ∧
    MojoMMT.ContainsKey id MojoMMT.initState 5 = false := by
  refine ⟨⟨by decide, by decide⟩, ?_, ?_⟩
  · exact (C10_contains_guard id MojoSetT.initState MojoMMT.initState 5
      (Or.inl ⟨by decide, by decide⟩)).1
  · exact (C10_contains_guard id MojoSetT.initState MojoMMT.initState 5
      (Or.inl ⟨by decide, by decide⟩)).2

/-! ## Probe machinery: characterization of the two-loop scan -/

theorem find?_congr_list {α : Type} {l : List α} {p q : α → Bool}
    (h : ∀ x ∈ l, p x = q x) : l.find? p = l.find? q := by
  induction l with
  | nil => rfl
  | cons a t ih =>
    have ha := h a (List.mem_cons_self a t)
    by_cases hp : p a
    · rw [List.find?_cons_of_pos t hp, List.find?_cons_of_pos t (by rw [← ha]; exact hp)]
    · rw [List.find?_cons_of_neg t hp, List.find?_cons_of_neg t (by rw [← ha]; exact hp)]
      exact ih (fun x hx => h x (List.mem_cons_of_mem a hx))

theorem dCyc_lt (tc a b : Nat) (h : 0 < tc) : dCyc tc a b < tc :=
  Nat.mod_lt _ h

theorem probe_dCyc {tc a b : Nat} (ha : a ≤ tc) (hb : b < tc) :
    (a + dCyc tc a b) % tc = b := by
  unfold dCyc
  rw [Nat.add_mod_mod]
  have h1 : a + (b + tc - a) = b + tc := by omega
  rw [h1, Nat.add_mod_right]
  exact Nat.mod_eq_of_lt hb

theorem dCyc_probe {tc a t : Nat} (ha : a < tc) (ht : t < tc) :
    dCyc tc a ((a + t) % tc) = t := by
  unfold dCyc
  rcases Nat.lt_or_ge (a + t) tc with h | h
  · rw [Nat.mod_eq_of_lt h]
    have h1 : a + t + tc - a = t + tc := by omega
    rw [h1, Nat.add_mod_right]
    exact Nat.mod_eq_of_lt ht
  · have h2 : a + t - tc < tc := by omega
    rw [Nat.mod_eq_sub_mod h, Nat.mod_eq_of_lt h2]
    have h1 : a + t - tc + tc - a = t := by omega
    rw [h1]
    exact Nat.mod_eq_of_lt ht

theorem find?_range'_some {s n i : Nat} {good : Nat → Bool}
    (h : (List.range' s n).find? good = some i) :
    good i = true ∧ s ≤ i ∧ i < s + n ∧ ∀ j, s ≤ j → j < i → good j = false := by
  rw [List.find?_eq_some] at h
  obtain ⟨hg, as, bs, happ, hprev⟩ := h
  obtain ⟨k, hk, has, hcons⟩ := List.range'_eq_append_iff.mp happ
  have hcons2 := hcons.symm
  rw [List.range'_eq_cons_iff] at hcons2
  obtain ⟨hi, hpos, _⟩ := hcons2
  subst hi
  subst has
  refine ⟨hg, by omega, by omega, ?_⟩
  intro j hj1 hj2
  have hmem : j ∈ List.range' s k := by
    rw [List.mem_range'_1]
    omega
  have := hprev j hmem
  simpa using this

theorem find?_range'_none {s n : Nat} {good : Nat → Bool}
    (h : (List.range' s n).find? good = none) :
    ∀ j, s ≤ j → j < s + n → good j = false := by
  rw [List.find?_eq_none] at h
  intro j hj1 hj2
  have hmem : j ∈ List.range' s n := by
    rw [List.mem_range'_1]
    omega
  simpa using h j hmem

/-- The probe scan is correct: when some slot in range qualifies, the scan
returns the first qualifying slot in cyclic order from start (in
particular never the fallback), and every slot strictly between start and
the result in cyclic order fails the test. -/
theorem femIdx_spec {tc start : Nat} {good : Nat → Bool}
    (hs : start < tc) (hex : ∃ j, j < tc ∧ good j = true) :
    good (femIdx tc start good) = true ∧ femIdx tc start good < tc ∧
      ∀ t, t < dCyc tc start (femIdx tc start good) → good ((start + t) % tc) = false := by
  obtain ⟨j0, hj0, hgj0⟩ := hex
  cases h1 : (List.range' start (tc - start)).find? good with
  | some i =>
    have hfem : femIdx tc start good = i := by
      unfold femIdx
      rw [h1]
    rw [hfem]
    obtain ⟨hg, hi1, hi2, hmin⟩ := find?_range'_some h1
    have hdc : dCyc tc start i = i - start := by
      unfold dCyc
      have : i + tc - start = (i - start) + tc := by omega
      rw [this, Nat.add_mod_right]
      exact Nat.mod_eq_of_lt (by omega)
    refine ⟨hg, by omega, ?_⟩
    intro t ht
    rw [hdc] at ht
    have : (start + t) % tc = start + t := Nat.mod_eq_of_lt (by omega)
    rw [this]
    exact hmin (start + t) (by omega) (by omega)
  | none =>
    have hnone := find?_range'_none h1
    cases h2 : (List.range' 0 start).find? good with
    | some u =>
      have hfem : femIdx tc start good = u := by
        unfold femIdx
        rw [h1, h2]
      rw [hfem]
      obtain ⟨hg, _, hu2, hmin⟩ := find?_range'_some h2
      have hdc : dCyc tc start u = u + tc - start := by
        unfold dCyc
        exact Nat.mod_eq_of_lt (by omega)
      refine ⟨hg, by omega, ?_⟩
      intro t ht
      rw [hdc] at ht
      rcases Nat.lt_or_ge t (tc - start) with hcase | hcase
      · have : (start + t) % tc = start + t := Nat.mod_eq_of_lt (by omega)
        rw [this]
        exact hnone (start + t) (by omega) (by omega)
      · have hlt : start + t - tc < tc := by omega
        rw [Nat.mod_eq_sub_mod (by omega), Nat.mod_eq_of_lt hlt]
        exact hmin (start + t - tc) (by omega) (by omega)
    | none =>
      exfalso
      rcases Nat.lt_or_ge j0 start with hc | hc
      · have := find?_range'_none h2 j0 (by omega) (by omega)
        rw [hgj0] at this
        exact Bool.noConfusion this
      · have := hnone j0 hc (by omega)
        rw [hgj0] at this
        exact Bool.noConfusion this

theorem countP_lt_exists_empty {tc ac : Nat} {slot : Nat → Nat}
    (hcount : ac = (List.range tc).countP (fun i => slot i != 0))
    (hlt : ac < tc) : ∃ i, i < tc ∧ slot i = 0 := by
  by_contra hno
  push_neg at hno
  have hall : ∀ a ∈ List.range tc, (fun i => slot i != 0) a = true := by
    intro a ha
    have ha' : a < tc := List.mem_range.mp ha
    simp only [bne_iff_ne, ne_eq]
    exact hno a ha'
  have := List.countP_eq_length.mpr hall
  rw [List.length_range] at this
  omega

/-- C7: on a well-counted MojoSet state with active_count < table_count
(and hence table_count > 0) and a non-null key k, FindEmptyOrMatching
starts at hash(k) mod table_count and scans forward, wrapping at the table
end: it returns an index below table_count whose slot is empty or holds
exactly k, and every slot strictly earlier in the cyclic probe order from
the start position is occupied by some other key — in particular the scan
found a qualifying slot, so the trailing fallback return of 0 is never
taken. -/
theorem C7_find_empty_or_matching_ok (hf : Nat → Nat) (s : MojoSetT) (k : Nat)
    (hk : k ≠ 0) (hcount : MojoSetT.CountWF s) (hlt : s.activeCount < s.tableCount) :
    MojoSetT.FindEmptyOrMatching hf s k < s.tableCount ∧
    (MojoSetT.slotAt s (MojoSetT.FindEmptyOrMatching hf s k) = 0 ∨
     MojoSetT.slotAt s (MojoSetT.FindEmptyOrMatching hf s k) = k) ∧
    (∀ t, t < dCyc s.tableCount (MojoSetT.homeOf hf s k) (MojoSetT.FindEmptyOrMatching hf s k) →
       MojoSetT.slotAt s ((MojoSetT.homeOf hf s k + t) % s.tableCount) ≠ 0 ∧
       MojoSetT.slotAt s ((MojoSetT.homeOf hf s k + t) % s.tableCount) ≠ k) := by
  have htc : 0 < s.tableCount := by omega
  have hstart : MojoSetT.homeOf hf s k < s.tableCount := Nat.mod_lt _ htc
  obtain ⟨i0, hi0, hz⟩ := countP_lt_exists_empty hcount hlt
  have hex : ∃ j, j < s.tableCount ∧
      (getE 0 s.buf j == 0 || getE 0 s.buf j == k) = true := by
    refine ⟨i0, hi0, ?_⟩
    simp only [MojoSetT.slotAt] at hz
    simp [hz]
  have hspec := femIdx_spec hstart hex
  obtain ⟨hg, hran, hmin⟩ := hspec
  refine ⟨hran, ?_, ?_⟩
  · simp only [MojoSetT.FindEmptyOrMatching, MojoSetT.slotAt, MojoSetT.homeOf] at *
    rcases Bool.or_eq_true_iff.mp hg with h | h
    · exact Or.inl (by simpa using h)
    · exact Or.inr (by simpa using h)
  · intro t ht
    have h2 := hmin t ht
    rw [Bool.or_eq_false_iff] at h2
    refine ⟨?_, ?_⟩
    · show getE 0 s.buf ((MojoSetT.homeOf hf s k + t) % s.tableCount) ≠ 0
      intro he
      rw [he] at h2
      simp at h2
    · show getE 0 s.buf ((MojoSetT.homeOf hf s k + t) % s.tableCount) ≠ k
      intro he
      rw [he] at h2
      simp at h2

/-- Witness for C7: the set {1} freshly created at table size 2, queried
with key 2. -/
theorem C7_find_empty_or_matching_ok_witness :
    let s : MojoSetT := MojoSetT.Insert id true (MojoSetT.Create id true 2 2 80 30 true true true) 1
    (2 ≠ 0 ∧ MojoSetT.CountWF s ∧ s.activeCount < s.tableCount) ∧
    (MojoSetT.FindEmptyOrMatching id s 2 < s.tableCount ∧
     (MojoSetT.slotAt s (MojoSetT.FindEmptyOrMatching id s 2) = 0 ∨
      MojoSetT.slotAt s (MojoSetT.FindEmptyOrMatching id s 2) = 2) ∧
     (∀ t, t < dCyc s.tableCount (MojoSetT.homeOf id s 2) (MojoSetT.FindEmptyOrMatching id s 2) →
        MojoSetT.slotAt s ((MojoSetT.homeOf id s 2 + t) % s.tableCount) ≠ 0 ∧
        MojoSetT.slotAt s ((MojoSetT.homeOf id s 2 + t) % s.tableCount) ≠ 2)) := by
  refine ⟨⟨by decide, by unfold MojoSetT.CountWF; decide, by decide⟩, ?_⟩
  exact C7_find_empty_or_matching_ok id _ 2 (by decide)
    (by unfold MojoSetT.CountWF; decide) (by decide)

theorem find?_rev_range'_some {s n i : Nat} {p : Nat → Bool}
    (h : ((List.range' s n).reverse).find? p = some i) :
    p i = true ∧ s ≤ i ∧ i < s + n ∧ ∀ j, i < j → j < s + n → p j = false := by
  rw [List.reverse_range', List.find?_map] at h
  cases hf : (List.range n).find? (p ∘ (s + n - 1 - ·)) with
  | none => rw [hf] at h; exact Option.noConfusion h
  | some t =>
    rw [hf] at h
    simp only [Option.map_some'] at h
    have h2 := hf
    rw [List.range_eq_range'] at h2
    obtain ⟨hp, ht1, ht2, hmin⟩ := find?_range'_some h2
    have hn : 0 < n := by omega
    have hi : i = s + n - 1 - t := by exact (Option.some.injEq _ _).mp h |>.symm
    subst hi
    refine ⟨hp, by omega, by omega, ?_⟩
    intro j hj1 hj2
    have hp2 := hmin (s + n - 1 - j) (by omega) (by omega)
    have hj : s + n - 1 - (s + n - 1 - j) = j := by omega
    simpa only [Function.comp, hj] using hp2

theorem dCyc_cases {tc a b : Nat} (ha : a < tc) (hb : b < tc) :
    dCyc tc a b = if a ≤ b then b - a else b + tc - a := by
  unfold dCyc
  by_cases h : a ≤ b
  · rw [if_pos h]
    have h1 : b + tc - a = (b - a) + tc := by omega
    rw [h1, Nat.add_mod_right]
    exact Nat.mod_eq_of_lt (by omega)
  · rw [if_neg h]
    exact Nat.mod_eq_of_lt (by omega)

theorem dCyc_refl (tc a : Nat) : dCyc tc a a = 0 := by
  unfold dCyc
  have h : a + tc - a = tc := by omega
  rw [h, Nat.mod_self]

theorem backscan_spec {tc index : Nat} {pred : Nat → Bool} (hidx : index < tc)
    (hex : ∃ j, j < tc ∧ j ≠ index ∧ pred j = true) :
    ∃ j, ((List.range index).reverse ++ (List.range' (index + 1) (tc - (index + 1))).reverse).find? pred = some j ∧
      j < tc ∧ j ≠ index ∧ pred j = true ∧
      ∀ j', j' < tc → 0 < dCyc tc j' index → dCyc tc j' index < dCyc tc j index →
        pred j' = false := by
  rw [List.find?_append]
  cases h1 : (List.range index).reverse.find? pred with
  | some j =>
    have h1' : ((List.range' 0 index).reverse).find? pred = some j := by
      rw [← List.range_eq_range']
      exact h1
    obtain ⟨hp, _, hj2, hmin⟩ := find?_rev_range'_some h1'
    have hj2' : j < index := by omega
    refine ⟨j, rfl, by omega, by omega, hp, ?_⟩
    have hdj : dCyc tc j index = index - j := by
      rw [dCyc_cases (by omega) hidx]
      rw [if_pos (by omega)]
    intro j' hj' hd1 hd2
    rw [hdj] at hd2
    rcases Nat.lt_or_ge j' index with hc | hc
    · have hd : dCyc tc j' index = index - j' := by
        rw [dCyc_cases (by omega) hidx, if_pos (by omega)]
      rw [hd] at hd1 hd2
      exact hmin j' (by omega) (by omega)
    · exfalso
      rcases Nat.eq_or_lt_of_le hc with hc2 | hc2
      · rw [← hc2, dCyc_refl] at hd1
        omega
      · have hd : dCyc tc j' index = index + tc - j' := by
          rw [dCyc_cases (by omega) hidx, if_neg (by omega)]
        omega
  | none =>
    have hnone1 : ∀ x, x < index → pred x = false := by
      intro x hx
      have := List.find?_eq_none.mp h1 x (by
        rw [List.mem_reverse, List.mem_range]
        exact hx)
      simpa using this
    cases h2 : ((List.range' (index + 1) (tc - (index + 1))).reverse).find? pred with
    | some j =>
      obtain ⟨hp, hj1, hj2, hmin⟩ := find?_rev_range'_some h2
      have hj2' : j < tc := by omega
      refine ⟨j, rfl, hj2', by omega, hp, ?_⟩
      have hdj : dCyc tc j index = index + tc - j := by
        rw [dCyc_cases hj2' hidx, if_neg (by omega)]
      intro j' hj' hd1 hd2
      rw [hdj] at hd2
      rcases Nat.lt_or_ge j' index with hc | hc
      · exact hnone1 j' hc
      · rcases Nat.eq_or_lt_of_le hc with hc2 | hc2
        · exfalso
          rw [← hc2, dCyc_refl] at hd1
          omega
        · have hd : dCyc tc j' index = index + tc - j' := by
            rw [dCyc_cases (by omega) hidx, if_neg (by omega)]
          rw [hd] at hd2
          exact hmin j' (by omega) (by omega)
    | none =>
      exfalso
      obtain ⟨j0, hj0, hne, hpj0⟩ := hex
      rcases Nat.lt_or_ge j0 index with hc | hc
      · rw [hnone1 j0 hc] at hpj0
        exact Bool.noConfusion hpj0
      · have hmem : j0 ∈ (List.range' (index + 1) (tc - (index + 1))).reverse := by
          rw [List.mem_reverse, List.mem_range'_1]
          omega
        have := List.find?_eq_none.mp h2 j0 hmem
        rw [hpj0] at this
        simp at this

theorem addCyc_inj {tc b x y : Nat} (hx : x < tc) (hy : y < tc)
    (h : (x + b) % tc = (y + b) % tc) : x = y := by
  have h2 : x % tc = y % tc := Nat.ModEq.add_right_cancel' b h
  rw [Nat.mod_eq_of_lt hx, Nat.mod_eq_of_lt hy] at h2
  exact h2

theorem dCyc_add_rev {tc b c : Nat} (hb : b < tc) (hc : c < tc) (hne : b ≠ c) :
    dCyc tc b c + dCyc tc c b = tc := by
  rw [dCyc_cases hb hc, dCyc_cases hc hb]
  rcases Nat.lt_or_ge b c with h | h
  · rw [if_pos (by omega), if_neg (by omega)]
    omega
  · rw [if_neg (by omega), if_pos (by omega)]
    omega

theorem dCyc_shift {tc a x y : Nat} (htc : 0 < tc) (hx : x ≤ y) (hy : y < tc) :
    dCyc tc ((a + x) % tc) ((a + y) % tc) = y - x := by
  have h1 : (a + y) % tc = ((a + x) % tc + (y - x)) % tc := by
    rw [Nat.mod_add_mod]
    congr 1
    omega
  rw [h1]
  exact dCyc_probe (Nat.mod_lt _ htc) (by omega)

namespace MojoMMT

/-- Under the representation invariant with at least one empty slot, when
key k is present the key probe lands on the first slot of k's cluster: it
holds k, and every earlier slot in the probe order from k's home is
occupied by another key. -/
theorem findKey_present {hf : Nat → Nat} {s : MojoMMT} {k : Nat}
    (hcnt : CountWF s) (hpaths : PathsWF hf s)
    (hroom : s.activeCount < s.tableCount) (hk : k ≠ 0)
    {i : Nat} (hi : i < s.tableCount) (hik : keyAt s i = k) :
    keyAt s (FindKey hf s k) = k ∧ FindKey hf s k < s.tableCount ∧
    dCyc s.tableCount (homeOf hf s k) (FindKey hf s k) ≤ dCyc s.tableCount (homeOf hf s k) i ∧
    (∀ t, t < dCyc s.tableCount (homeOf hf s k) (FindKey hf s k) →
      keyAt s ((homeOf hf s k + t) % s.tableCount) ≠ 0 ∧
      keyAt s ((homeOf hf s k + t) % s.tableCount) ≠ k) := by
  have htc : 0 < s.tableCount := by omega
  have hstart : homeOf hf s k < s.tableCount := Nat.mod_lt _ htc
  obtain ⟨e0, he0, hez⟩ := countP_lt_exists_empty hcnt hroom
  have hex : ∃ j, j < s.tableCount ∧
      ((getE (0, 0) s.buf j).1 == 0 || (getE (0, 0) s.buf j).1 == k) = true := by
    refine ⟨e0, he0, ?_⟩
    simp only [keyAt, slotAt] at hez
    rw [show ((getE (0, 0) s.buf e0).1 == 0) = true from beq_iff_eq.mpr hez, Bool.true_or]
  obtain ⟨hg, hlt, hmin⟩ := femIdx_spec hstart hex
  have hFK : femIdx s.tableCount (homeOf hf s k)
      (fun i => (getE (0, 0) s.buf i).1 == 0 || (getE (0, 0) s.buf i).1 == k) =
      FindKey hf s k := rfl
  rw [hFK] at hg hlt hmin
  have hmin' : ∀ t, t < dCyc s.tableCount (homeOf hf s k) (FindKey hf s k) →
      keyAt s ((homeOf hf s k + t) % s.tableCount) ≠ 0 ∧
      keyAt s ((homeOf hf s k + t) % s.tableCount) ≠ k := by
    intro t ht
    have h2 := hmin t ht
    rw [Bool.or_eq_false_iff] at h2
    constructor
    · show keyAt s ((homeOf hf s k + t) % s.tableCount) ≠ 0
      intro he
      simp only [keyAt, slotAt] at he
      rw [he] at h2
      simp at h2
    · intro he
      simp only [keyAt, slotAt] at he
      rw [he] at h2
      simp at h2
  have hle : dCyc s.tableCount (homeOf hf s k) (FindKey hf s k) ≤
      dCyc s.tableCount (homeOf hf s k) i := by
    by_contra hgt
    push_neg at hgt
    have h2 := hmin' (dCyc s.tableCount (homeOf hf s k) i) hgt
    rw [probe_dCyc (a := homeOf hf s k) (Nat.le_of_lt hstart) hi] at h2
    exact h2.2 hik
  refine ⟨?_, hlt, hle, hmin'⟩
  -- the probe result holds k, not the empty key
  rcases Bool.or_eq_true_iff.mp hg with h | h
  · exfalso
    have hfz : keyAt s (FindKey hf s k) = 0 := by
      simpa [keyAt, slotAt] using h
    have hfi : FindKey hf s k ≠ i := by
      intro he
      rw [he, hik] at hfz
      exact hk hfz
    have hstrict : dCyc s.tableCount (homeOf hf s k) (FindKey hf s k) <
        dCyc s.tableCount (homeOf hf s k) i := by
      rcases Nat.eq_or_lt_of_le hle with he | hlt2
      · exfalso
        apply hfi
        have h1 := probe_dCyc (a := homeOf hf s k) (Nat.le_of_lt hstart) hlt
        have h2 := probe_dCyc (a := homeOf hf s k) (Nat.le_of_lt hstart) hi
        rw [← h1, ← h2, he]
      · exact hlt2
    have hp := hpaths i hi (by rw [hik]; exact hk)
    rw [hik] at hp
    have := hp (dCyc s.tableCount (homeOf hf s k) (FindKey hf s k)) hstrict
    rw [probe_dCyc (a := homeOf hf s k) (Nat.le_of_lt hstart) hlt] at this
    exact this hfz
  · simpa [keyAt, slotAt] using h

end MojoMMT

/-! ## Slot read/write lemmas -/

theorem getE_setE_self {α : Type} {b : Option (List α)} {d v : α} {i : Nat}
    (hb : b.isSome = true) (hi : i < (b.getD []).length) :
    getE d (setE b i v) i = v := by
  cases b with
  | none => simp at hb
  | some l =>
    simp only [Option.getD_some] at hi
    simp [getE, setE, List.getD_eq_getElem?_getD, List.getElem?_set_self, hi]

theorem getE_setE_ne {α : Type} {b : Option (List α)} {d v : α} {i j : Nat}
    (hij : i ≠ j) : getE d (setE b i v) j = getE d b j := by
  cases b with
  | none => rfl
  | some l =>
    simp [getE, setE, List.getD_eq_getElem?_getD, List.getElem?_set_ne hij]

/-- A slot that qualifies while every cyclically earlier slot fails is the
probe result. -/
theorem femIdx_eq {tc start i : Nat} {good : Nat → Bool}
    (hs : start < tc) (hi : i < tc) (hgi : good i = true)
    (hmin : ∀ t, t < dCyc tc start i → good ((start + t) % tc) = false) :
    femIdx tc start good = i := by
  obtain ⟨hg, hlt, hmin'⟩ := femIdx_spec hs ⟨i, hi, hgi⟩
  rcases Nat.lt_trichotomy (dCyc tc start (femIdx tc start good)) (dCyc tc start i) with h | h | h
  · exfalso
    have := hmin _ h
    rw [probe_dCyc (Nat.le_of_lt hs) hlt] at this
    rw [this] at hg
    exact Bool.noConfusion hg
  · have h1 := probe_dCyc (a := start) (Nat.le_of_lt hs) hlt
    have h2 := probe_dCyc (a := start) (Nat.le_of_lt hs) hi
    rw [← h1, ← h2, h]
  · exfalso
    have := hmin' _ h
    rw [probe_dCyc (Nat.le_of_lt hs) hi] at this
    rw [this] at hgi
    exact Bool.noConfusion hgi

namespace MojoSetT

/-- Grow is a no-op strictly below the threshold. -/
theorem growF_noop {hf : Nat → Nat} {allocOk : Bool} {fuel : Nat} {s : MojoSetT}
    (h : s.activeCount * 100 < s.tableCount * s.growThreshold) :
    GrowF hf allocOk fuel s = s := by
  cases fuel with
  | zero => rfl
  | succ n =>
    unfold GrowF
    rw [if_neg (by omega)]

/-- One step of insert when the growth check is inert and there is room:
either the probe slot is empty and the key is written, or the slot already
holds the key and nothing changes. -/
theorem insertF_step {hf : Nat → Nat} {allocOk : Bool} {fuel : Nat} {s : MojoSetT} {k : Nat}
    (hOk : s.status = Ok) (hk : k ≠ 0)
    (hgrow : s.autoGrow = false ∨ s.activeCount * 100 < s.tableCount * s.growThreshold)
    (hroom : s.activeCount < s.tableCount) :
    InsertF hf allocOk (fuel + 1) s k =
      (if getE 0 s.buf (FindEmptyOrMatching hf s k) == 0 then
        { s with buf := setE s.buf (FindEmptyOrMatching hf s k) k,
                 activeCount := s.activeCount + 1, changeCount := s.changeCount + 1 }
       else s) := by
  have hs1 : (if s.autoGrow then GrowF hf allocOk fuel s else s) = s := by
    rcases hgrow with h | h
    · rw [h]
      rfl
    · cases hag : s.autoGrow
      · rfl
      · simp only [if_pos]
        exact growF_noop h
  unfold InsertF
  rw [if_neg (by simp [hOk]), if_neg (by simp [hk])]
  simp only [hs1]
  rw [if_pos hroom]

end MojoSetT

namespace MojoSetT

/-- Inserting into a table with no free slot changes nothing (the growth
check is inert, and the room check fails before any write). -/
theorem insert_full_noop {hf : Nat → Nat} {allocOk : Bool} {s : MojoSetT} {k : Nat}
    (hOk : s.status = Ok) (hk : k ≠ 0)
    (hgrow : s.autoGrow = false ∨ s.activeCount * 100 < s.tableCount * s.growThreshold)
    (hfull : s.tableCount ≤ s.activeCount) :
    Insert hf allocOk s k = s := by
  have hfuel : defFuel s = (defFuel s - 1) + 1 := by
    unfold defFuel
    omega
  have hs1 : (if s.autoGrow then GrowF hf allocOk (defFuel s - 1) s else s) = s := by
    rcases hgrow with h | h
    · rw [h]
      rfl
    · cases hag : s.autoGrow
      · rfl
      · simp only [if_pos]
        exact growF_noop h
  unfold Insert
  rw [hfuel]
  unfold InsertF
  rw [if_neg (by simp [hOk]), if_neg (by simp [hk])]
  simp only [hs1]
  rw [if_neg (by omega)]

/-- Inserting a key already at its probe position changes nothing. -/
theorem insert_present_noop {hf : Nat → Nat} {allocOk : Bool} {s : MojoSetT} {k : Nat}
    (hOk : s.status = Ok) (hk : k ≠ 0)
    (hgrow : s.autoGrow = false ∨ s.activeCount * 100 < s.tableCount * s.growThreshold)
    (hroom : s.activeCount < s.tableCount)
    (hmatch : getE 0 s.buf (FindEmptyOrMatching hf s k) = k) :
    Insert hf allocOk s k = s := by
  have hfuel : defFuel s = (defFuel s - 1) + 1 := by
    unfold defFuel
    omega
  unfold Insert
  rw [hfuel, insertF_step hOk hk hgrow hroom, if_neg]
  rw [hmatch]
  simp [hk]

/-- Inserting a key whose probe position is empty writes exactly that slot
and bumps the two counters. -/
theorem insert_absent_effect {hf : Nat → Nat} {allocOk : Bool} {s : MojoSetT} {k : Nat}
    (hOk : s.status = Ok) (hk : k ≠ 0)
    (hgrow : s.autoGrow = false ∨ s.activeCount * 100 < s.tableCount * s.growThreshold)
    (hroom : s.activeCount < s.tableCount)
    (hempty : getE 0 s.buf (FindEmptyOrMatching hf s k) = 0) :
    Insert hf allocOk s k =
      { s with buf := setE s.buf (FindEmptyOrMatching hf s k) k,
               activeCount := s.activeCount + 1, changeCount := s.changeCount + 1 } := by
  have hfuel : defFuel s = (defFuel s - 1) + 1 := by
    unfold defFuel
    omega
  unfold Insert
  rw [hfuel, insertF_step hOk hk hgrow hroom, if_pos]
  rw [hempty]
  rfl

end MojoSetT

namespace MojoSetT

/-- Probe characterization on a well-counted set with room: the result is
in range, its slot is empty or holds the key, and every cyclically earlier
slot holds some other key. -/
theorem femSet_ok {hf : Nat → Nat} {s : MojoSetT} {k : Nat}
    (hk : k ≠ 0) (hcount : CountWF s) (hlt : s.activeCount < s.tableCount) :
    FindEmptyOrMatching hf s k < s.tableCount ∧
    (slotAt s (FindEmptyOrMatching hf s k) = 0 ∨
     slotAt s (FindEmptyOrMatching hf s k) = k) ∧
    (∀ t, t < dCyc s.tableCount (homeOf hf s k) (FindEmptyOrMatching hf s k) →
       slotAt s ((homeOf hf s k + t) % s.tableCount) ≠ 0 ∧
       slotAt s ((homeOf hf s k + t) % s.tableCount) ≠ k) := by
  have htc : 0 < s.tableCount := by omega
  have hstart : homeOf hf s k < s.tableCount := Nat.mod_lt _ htc
  obtain ⟨i0, hi0, hz⟩ := countP_lt_exists_empty hcount hlt
  have hex : ∃ j, j < s.tableCount ∧
      (getE 0 s.buf j == 0 || getE 0 s.buf j == k) = true := by
    refine ⟨i0, hi0, ?_⟩
    simp only [slotAt] at hz
    simp [hz]
  obtain ⟨hg, hran, hmin⟩ := femIdx_spec hstart hex
  refine ⟨hran, ?_, ?_⟩
  · simp only [FindEmptyOrMatching, slotAt, homeOf] at *
    rcases Bool.or_eq_true_iff.mp hg with h | h
    · exact Or.inl (by simpa using h)
    · exact Or.inr (by simpa using h)
  · intro t ht
    have h2 := hmin t ht
    rw [Bool.or_eq_false_iff] at h2
    refine ⟨?_, ?_⟩
    · show getE 0 s.buf ((homeOf hf s k + t) % s.tableCount) ≠ 0
      intro he
      rw [he] at h2
      simp at h2
    · show getE 0 s.buf ((homeOf hf s k + t) % s.tableCount) ≠ k
      intro he
      rw [he] at h2
      simp at h2

end MojoSetT

/-- C9 (amended): for a MojoSet with status ok and a non-null key k, when
the buffer and count invariants hold and the insert cannot cross the
auto-grow threshold (auto-grow off, or the table after one more key stays
strictly under the threshold), Insert(k); Insert(k) leaves the set in
exactly the same state as Insert(k): the second insert's probe lands on
the slot holding k and changes nothing, and on a table with no free slot
both inserts are no-ops. (Unamended the claim is false: a duplicate
insert can trigger the grow sweep and change the table, see the
counterexample.) -/
theorem C9_insert_idempotent_corrected (hf : Nat → Nat) (allocOk : Bool) (s : MojoSetT) (k : Nat)
    (hOk : s.status = Ok) (hk : k ≠ 0)
    (hbuf : MojoSetT.BufWF s) (hcnt : MojoSetT.CountWF s)
    (hgrow : s.autoGrow = false ∨ (s.activeCount + 1) * 100 < s.tableCount * s.growThreshold) :
    MojoSetT.Insert hf allocOk (MojoSetT.Insert hf allocOk s k) k =
      MojoSetT.Insert hf allocOk s k := by
  have hgrow0 : s.autoGrow = false ∨ s.activeCount * 100 < s.tableCount * s.growThreshold := by
    rcases hgrow with h | h
    · exact Or.inl h
    · right
      have : s.activeCount * 100 ≤ (s.activeCount + 1) * 100 := by omega
      omega
  by_cases hroom0 : s.activeCount < s.tableCount
  · have htc : 0 < s.tableCount := by omega
    obtain ⟨hlt, hdico, hmin⟩ := @MojoSetT.femSet_ok hf s k hk hcnt hroom0
    have hstart : MojoSetT.homeOf hf s k < s.tableCount := Nat.mod_lt _ htc
    rcases hdico with hempty | hmatch
    · -- the key is new: the first insert writes it, the second finds it
      simp only [MojoSetT.slotAt] at hempty
      rw [MojoSetT.insert_absent_effect hOk hk hgrow0 hroom0 hempty]
      set idx := MojoSetT.FindEmptyOrMatching hf s k with hidx
      set s1 : MojoSetT :=
        { s with buf := setE s.buf idx k,
                 activeCount := s.activeCount + 1, changeCount := s.changeCount + 1 } with hs1
      have hlen : (s.buf.getD []).length = s.allocCount := hbuf.2.1
      have hidxlen : idx < (s.buf.getD []).length := by
        rw [hlen]
        have := hbuf.2.2
        omega
      have hget : getE 0 s1.buf idx = k := getE_setE_self hbuf.1 hidxlen
      by_cases hroom1 : s.activeCount + 1 < s.tableCount
      · have hFEM : MojoSetT.FindEmptyOrMatching hf s1 k = idx := by
          apply femIdx_eq hstart hlt
          · rw [hget]
            simp [hk]
          · intro t ht
            have httc : t < s.tableCount := by
              have := dCyc_lt s.tableCount (MojoSetT.homeOf hf s k) idx htc
              omega
            have hne : idx ≠ (MojoSetT.homeOf hf s k + t) % s.tableCount := by
              intro he
              have hd := dCyc_probe (a := MojoSetT.homeOf hf s k) hstart httc
              rw [← he] at hd
              omega
            have h2 := hmin t ht
            simp only [MojoSetT.slotAt] at h2
            rw [getE_setE_ne hne]
            have h21 := h2.1
            have h22 := h2.2
            simp [h21, h22]
        apply MojoSetT.insert_present_noop
        · exact hOk
        · exact hk
        · rcases hgrow with h | h
          · exact Or.inl h
          · exact Or.inr h
        · exact hroom1
        · rw [hFEM]
          exact hget
      · -- the first insert fills the last slot: the second insert fails the
        -- room check and changes nothing
        apply MojoSetT.insert_full_noop
        · exact hOk
        · exact hk
        · rcases hgrow with h | h
          · exact Or.inl h
          · exact Or.inr h
        · show s.tableCount ≤ s.activeCount + 1
          omega
    · -- the key is already present: both inserts are no-ops
      simp only [MojoSetT.slotAt] at hmatch
      have h1 : MojoSetT.Insert hf allocOk s k = s :=
        MojoSetT.insert_present_noop hOk hk hgrow0 hroom0 hmatch
      rw [h1, h1]
  · -- no free slot at all: both inserts fail the room check and change
    -- nothing
    have h1 : MojoSetT.Insert hf allocOk s k = s :=
      MojoSetT.insert_full_noop hOk hk hgrow0 (by omega)
    rw [h1, h1]

/-- Witness for C9 at a concrete input: a freshly created set of table
size 8 and the key 5. -/
theorem C9_insert_idempotent_corrected_witness :
    let s : MojoSetT := MojoSetT.Create id true 8 8 80 30 true true true
    (s.status = Ok ∧ (5 : Nat) ≠ 0 ∧ MojoSetT.BufWF s ∧ MojoSetT.CountWF s ∧
     (s.autoGrow = false ∨ (s.activeCount + 1) * 100 < s.tableCount * s.growThreshold)) ∧
    MojoSetT.Insert id true (MojoSetT.Insert id true s 5) 5 = MojoSetT.Insert id true s 5 := by
  refine ⟨⟨by decide, by decide, by unfold MojoSetT.BufWF; decide,
    by unfold MojoSetT.CountWF; decide, by decide⟩, ?_⟩
  exact C9_insert_idempotent_corrected id true _ 5 (by decide) (by decide)
    (by unfold MojoSetT.BufWF; decide) (by unfold MojoSetT.CountWF; decide)
    (by decide)

/-! ## Change-count monotonicity of the child-to-parent map -/

theorem foldl_mono_nat {α β : Type} (m : α → Nat) (step : α → β → α)
    (h : ∀ a b, m a ≤ m (step a b)) : ∀ (l : List β) (a : α), m a ≤ m (l.foldl step a) := by
  intro l
  induction l with
  | nil => intro a; exact Nat.le_refl _
  | cons b t ih =>
    intro a
    exact Nat.le_trans (h a b) (ih (step a b))

namespace MojoMapT

theorem reinsert_changeCount (hf : Nat → Nat) (s : MojoMapT) (i : Nat) :
    (Reinsert hf s i).changeCount = s.changeCount := by
  unfold Reinsert
  dsimp only
  split
  · rfl
  · rfl

theorem sweepTail_changeCount (hf : Nat → Nat) :
    ∀ (l : List Nat) (s : MojoMapT), (sweepTail hf s l).changeCount = s.changeCount := by
  intro l
  induction l with
  | nil => intro s; rfl
  | cons i rest ih =>
    intro s
    unfold sweepTail
    split
    · rfl
    · rw [ih, reinsert_changeCount]

theorem sweepReinsert_changeCount (hf : Nat → Nat) (s : MojoMapT) (idxs : List Nat) :
    (sweepReinsert hf s idxs).changeCount = s.changeCount := by
  induction idxs generalizing s with
  | nil => rfl
  | cons i rest ih =>
    unfold sweepReinsert
    rw [List.foldl_cons]
    rw [show List.foldl (fun acc i => if (getE (0, 0) acc.buf i).1 ≠ 0 then Reinsert hf acc i else acc)
        (if (getE (0, 0) s.buf i).1 ≠ 0 then Reinsert hf s i else s) rest
        = sweepReinsert hf (if (getE (0, 0) s.buf i).1 ≠ 0 then Reinsert hf s i else s) rest from rfl]
    rw [ih]
    split
    · rw [reinsert_changeCount]
    · rfl

theorem mapF_changeCount_mono (hf : Nat → Nat) (allocOk : Bool) : ∀ fuel : Nat,
    (∀ (s : MojoMapT) (ntc ncap : Nat),
      s.changeCount ≤ (ResizeF hf allocOk fuel s ntc ncap).changeCount) ∧
    (∀ s : MojoMapT, s.changeCount ≤ (GrowF hf allocOk fuel s).changeCount) ∧
    (∀ (s : MojoMapT) (k v : Nat),
      s.changeCount ≤ (InsertF hf allocOk fuel s k v).changeCount) := by
  intro fuel
  induction fuel with
  | zero =>
    exact ⟨fun s _ _ => Nat.le_refl _, fun s => Nat.le_refl _, fun s _ _ => Nat.le_refl _⟩
  | succ n ih =>
    obtain ⟨ihR, ihG, ihI⟩ := ih
    have hfold : ∀ (s1 : MojoMapT) (old : List KV),
        s1.changeCount ≤
          (refillFold (fun a e => InsertF hf allocOk n a e.1 e.2) s1 old).changeCount := by
      intro s1 old
      unfold refillFold
      exact foldl_mono_nat (fun a : MojoMapT => a.changeCount)
        (fun acc e => if e.1 ≠ 0 then InsertF hf allocOk n acc e.1 e.2 else acc)
        (fun a e => by
          dsimp only
          split
          · exact ihI a e.1 e.2
          · exact Nat.le_refl _) old s1
    have hResize : ∀ (s : MojoMapT) (ntc ncap : Nat),
        s.changeCount ≤ (ResizeF hf allocOk (n + 1) s ntc ncap).changeCount := by
      intro s ntc ncap
      unfold ResizeF
      split
      · dsimp only
        split
        · refine le_of_eq_of_le ?_ (hfold _ _)
          rfl
        · exact Nat.le_refl _
      · split
        · rw [sweepReinsert_changeCount]
        · split
          · rw [sweepTail_changeCount, sweepReinsert_changeCount]
          · exact Nat.le_refl _
    refine ⟨hResize, ?_, ?_⟩
    · intro s
      unfold GrowF
      split
      · exact ihR s _ _
      · exact Nat.le_refl _
    · intro s k v
      unfold InsertF
      split
      · exact Nat.le_refl _
      · split
        · exact Nat.le_refl _
        · have hgs : s.changeCount ≤
              (if s.autoGrow = true then GrowF hf allocOk n s else s).changeCount := by
            split
            · exact ihG s
            · exact Nat.le_refl _
          dsimp only
          generalize hgen : (if s.autoGrow = true then GrowF hf allocOk n s else s) = s1 at hgs ⊢
          refine Nat.le_trans hgs ?_
          split
          · split
            · exact Nat.le_succ _
            · split
              · exact Nat.le_succ _
              · exact Nat.le_refl _
          · exact Nat.le_refl _

end MojoMapT

namespace MojoMapT

theorem removeFixupGo_changeCount (hf : Nat → Nat) :
    ∀ (l : List Nat) (s : MojoMapT), (removeFixupGo hf s l).changeCount = s.changeCount := by
  intro l
  induction l with
  | nil => intro s; rfl
  | cons i rest ih =>
    intro s
    unfold removeFixupGo
    split
    · rfl
    · rw [ih, reinsert_changeCount]

theorem removeOne_changeCount (hf : Nat → Nat) (s : MojoMapT) (key : Nat) :
    (RemoveOne hf s key).2.2.changeCount = s.changeCount := by
  unfold RemoveOne
  split
  · rfl
  · dsimp only
    split
    · rfl
    · exact removeFixupGo_changeCount hf _ _

theorem shrinkF_changeCount_mono (hf : Nat → Nat) (allocOk : Bool) (fuel : Nat) (s : MojoMapT) :
    s.changeCount ≤ (ShrinkF hf allocOk fuel s).changeCount := by
  unfold ShrinkF
  split
  · exact (mapF_changeCount_mono hf allocOk fuel).1 s _ _
  · exact Nat.le_refl _

theorem remove_changeCount_mono (hf : Nat → Nat) (allocOk : Bool) (s : MojoMapT) (key : Nat) :
    s.changeCount ≤ (Remove hf allocOk s key).changeCount := by
  unfold Remove
  split
  · exact Nat.le_refl _
  · split
    · split
      · rename_i s1 heq
        have h1 : s1.changeCount = s.changeCount := by
          have h0 := removeOne_changeCount hf s key
          rw [heq] at h0
          exact h0
        have h2 : s.changeCount ≤ s1.changeCount + 1 := by omega
        dsimp only
        split
        · refine Nat.le_trans h2 (le_of_eq_of_le ?_ (shrinkF_changeCount_mono hf allocOk _ _))
          rfl
        · exact h2
      · exact Nat.le_refl _
    · exact Nat.le_refl _

theorem insert_changeCount_mono (hf : Nat → Nat) (allocOk : Bool) (s : MojoMapT)
    (key value : Nat) : s.changeCount ≤ (Insert hf allocOk s key value).changeCount :=
  (mapF_changeCount_mono hf allocOk (defFuel s)).2.2 s key value

end MojoMapT

namespace MojoRelT

theorem removeChild_changeCount_mono (hf : Nat → Nat) (allocOk : Bool) (r : MojoRelT)
    (child : Nat) :
    r.c2p.changeCount ≤ (RemoveChild hf allocOk r child).c2p.changeCount := by
  unfold RemoveChild
  split
  · dsimp only
    split
    · exact MojoMapT.remove_changeCount_mono hf allocOk r.c2p child
    · exact MojoMapT.remove_changeCount_mono hf allocOk r.c2p child
  · exact Nat.le_refl _

theorem insertChildParent_changeCount_mono (hf : Nat → Nat) (allocOk : Bool) (r : MojoRelT)
    (child parent : Nat) :
    r.c2p.changeCount ≤ (InsertChildParent hf allocOk r child parent).c2p.changeCount := by
  unfold InsertChildParent
  split
  · exact removeChild_changeCount_mono hf allocOk r child
  · split
    · exact Nat.le_refl _
    · dsimp only
      have h1 := removeChild_changeCount_mono hf allocOk r child
      have h2 := MojoMapT.insert_changeCount_mono hf allocOk
        (RemoveChild hf allocOk r child).c2p child parent
      split
      · exact Nat.le_trans h1 h2
      · exact Nat.le_trans h1 h2

end MojoRelT

/-- C8 (amended): MojoRelation::_GetChangeCount returns the change count of
its child-to-parent map alone — not the sum of the change counts of its two
underlying sources — and that counter is monotonically non-decreasing
across the relation's mutating operations (InsertChildParent and
RemoveChild, through every internal insert, remove, grow and shrink
path). -/
theorem C8_change_count_corrected (hf : Nat → Nat) (allocOk : Bool) (r : MojoRelT)
    (child parent : Nat) :
    MojoRelT.GetChangeCount r = r.c2p.changeCount ∧
    MojoRelT.GetChangeCount r ≤
      MojoRelT.GetChangeCount (MojoRelT.InsertChildParent hf allocOk r child parent) ∧
    MojoRelT.GetChangeCount r ≤
      MojoRelT.GetChangeCount (MojoRelT.RemoveChild hf allocOk r child) :=
  ⟨rfl, MojoRelT.insertChildParent_changeCount_mono hf allocOk r child parent,
    MojoRelT.removeChild_changeCount_mono hf allocOk r child⟩

namespace MojoMMT

theorem getFirstIndex_cursor (s : MojoMMT) : GetFirstIndex s = cursorFrom s 0 := by
  unfold GetFirstIndex cursorFrom
  rw [Nat.sub_zero, ← List.range_eq_range']

theorem getNextIndex_cursor (s : MojoMMT) (i : Nat) :
    GetNextIndex s i = cursorFrom s (i + 1) := rfl

end MojoMMT

theorem dCyc_zero_eq {tc a b : Nat} (ha : a < tc) (hb : b < tc)
    (h : dCyc tc a b = 0) : a = b := by
  have h1 := probe_dCyc (Nat.le_of_lt ha) hb
  rw [h, Nat.add_zero, Nat.mod_eq_of_lt ha] at h1
  exact h1

namespace MojoMMT

/-- On an invariant-respecting table with room, a slot holding key k that
is not the probe result for k is not first in its run: the backward scan
meets an earlier slot of k's cluster before any empty slot. -/
theorem isFirstInRun_false_of_ne {hf : Nat → Nat} {s : MojoMMT} {k : Nat}
    (hcnt : CountWF s) (hpaths : PathsWF hf s)
    (hroom : s.activeCount < s.tableCount) (hk : k ≠ 0)
    {i : Nat} (hi : i < s.tableCount) (hik : keyAt s i = k)
    (hne : i ≠ FindKey hf s k) :
    IsFirstInRun s i = false := by
  have htc : 0 < s.tableCount := by omega
  have hstart : homeOf hf s k < s.tableCount := Nat.mod_lt _ htc
  obtain ⟨hkf, hflt, hle, _⟩ := findKey_present hcnt hpaths hroom hk hi hik
  set tc := s.tableCount with htcdef
  set home := homeOf hf s k with hhome
  set f := FindKey hf s k with hfdef
  have hαβ : dCyc tc home f < dCyc tc home i := by
    rcases Nat.eq_or_lt_of_le hle with he | h
    · exfalso
      apply hne
      have h1 := probe_dCyc (Nat.le_of_lt hstart) hflt
      have h2 := probe_dCyc (Nat.le_of_lt hstart) hi
      rw [← h1, ← h2, he]
    · exact h
  -- the back scan from i
  have hpredf : ((getE (0, 0) s.buf f).1 == 0 ||
      (getE (0, 0) s.buf f).1 == (getE (0, 0) s.buf i).1) = true := by
    have h1 : (getE (0, 0) s.buf f).1 = k := hkf
    have h2 : (getE (0, 0) s.buf i).1 = k := hik
    rw [h1, h2]
    simp
  have hfne : f ≠ i := fun he => hne (he.symm)
  obtain ⟨j, hfind, hjlt, hjne, hpj, hjmin⟩ :=
    @backscan_spec tc i
      (fun j => (getE (0, 0) s.buf j).1 == 0 ||
        (getE (0, 0) s.buf j).1 == (getE (0, 0) s.buf i).1)
      hi ⟨f, hflt, hfne, hpredf⟩
  -- the found slot is occupied (it lies on i's probe path)
  have hdfi : dCyc tc f i = dCyc tc home i - dCyc tc home f := by
    have h3 := dCyc_shift (a := home) htc (Nat.le_of_lt hαβ) (dCyc_lt tc home i htc)
    rw [probe_dCyc (Nat.le_of_lt hstart) hflt, probe_dCyc (Nat.le_of_lt hstart) hi] at h3
    exact h3
  have hdfi_pos : 0 < dCyc tc f i := by
    rcases Nat.eq_zero_or_pos (dCyc tc f i) with h0 | h
    · exact absurd (dCyc_zero_eq hflt hi h0) hfne
    · exact h
  have hjle : dCyc tc j i ≤ dCyc tc f i := by
    by_contra hgt
    push_neg at hgt
    have := hjmin f hflt hdfi_pos hgt
    rw [hpredf] at this
    exact Bool.noConfusion this
  have hjpos : 0 < dCyc tc j i := by
    rcases Nat.eq_zero_or_pos (dCyc tc j i) with h0 | h
    · exact absurd (dCyc_zero_eq hjlt hi h0) hjne
    · exact h
  -- j's offset from the home slot
  have hγ : dCyc tc home j = dCyc tc home i - dCyc tc j i := by
    have hj_eq : (home + dCyc tc home j) % tc = j := probe_dCyc (Nat.le_of_lt hstart) hjlt
    have hi_eq : (j + dCyc tc j i) % tc = i := probe_dCyc (Nat.le_of_lt hjlt) hi
    have hcomp : (home + (dCyc tc home j + dCyc tc j i)) % tc = i := by
      rw [← Nat.add_assoc, ← Nat.mod_add_mod, hj_eq, hi_eq]
    have hβ : dCyc tc home i = (dCyc tc home j + dCyc tc j i) % tc := by
      have h3 : (home + (dCyc tc home j + dCyc tc j i) % tc) % tc = i := by
        rw [Nat.add_mod_mod]
        exact hcomp
      have h4 := dCyc_probe (a := home) hstart
        (Nat.mod_lt (dCyc tc home j + dCyc tc j i) htc)
      rw [h3] at h4
      exact h4
    have hγlt : dCyc tc home j < tc := dCyc_lt tc home j htc
    have hjilt : dCyc tc j i < tc := dCyc_lt tc j i htc
    have hβlt : dCyc tc home i < tc := dCyc_lt tc home i htc
    rcases Nat.lt_or_ge (dCyc tc home j + dCyc tc j i) tc with hc | hc
    · rw [Nat.mod_eq_of_lt hc] at hβ
      omega
    · rw [Nat.mod_eq_sub_mod hc, Nat.mod_eq_of_lt (by omega)] at hβ
      omega
  have hjz : keyAt s j ≠ 0 := by
    have hp := hpaths i hi (by rw [hik]; exact hk)
    rw [hik] at hp
    have hlt2 : dCyc tc home j < dCyc tc home i := by omega
    have := hp (dCyc tc home j) hlt2
    have hj_eq : (home + dCyc tc home j) % tc = j := probe_dCyc (Nat.le_of_lt hstart) hjlt
    rw [hj_eq] at this
    exact this
  -- hence the scan reports a non-empty slot
  unfold IsFirstInRun
  dsimp only
  rw [← htcdef, hfind]
  simp only [keyAt, slotAt] at hjz
  exact beq_eq_false_iff_ne.mpr hjz

end MojoMMT

namespace MojoMMT

/-- On an invariant-respecting table with room, the probe result for a
present key is first in its run: scanning backward from it meets an empty
slot before any other slot with the key. -/
theorem isFirstInRun_findKey {hf : Nat → Nat} {s : MojoMMT} {k : Nat}
    (hcnt : CountWF s) (hpaths : PathsWF hf s)
    (hroom : s.activeCount < s.tableCount) (hk : k ≠ 0)
    {i0 : Nat} (hi0 : i0 < s.tableCount) (hik0 : keyAt s i0 = k) :
    IsFirstInRun s (FindKey hf s k) = true := by
  have htc : 0 < s.tableCount := by omega
  have hstart : homeOf hf s k < s.tableCount := Nat.mod_lt _ htc
  obtain ⟨hkf, hflt, _, _⟩ := findKey_present hcnt hpaths hroom hk hi0 hik0
  set tc := s.tableCount with htcdef
  set home := homeOf hf s k with hhome
  set f := FindKey hf s k with hfdef
  unfold IsFirstInRun
  dsimp only
  rw [← htcdef]
  cases hfind : List.find?
      (fun j => (getE (0, 0) s.buf j).1 == 0 || (getE (0, 0) s.buf j).1 == (getE (0, 0) s.buf f).1)
      ((List.range f).reverse ++ (List.range' (f + 1) (tc - (f + 1))).reverse) with
  | none => rfl
  | some j =>
    have hpj := List.find?_some hfind
    have hjmem := List.mem_of_find?_eq_some hfind
    have hjlt : j < tc := by
      rcases List.mem_append.mp hjmem with h | h
      · rw [List.mem_reverse, List.mem_range] at h
        omega
      · rw [List.mem_reverse, List.mem_range'_1] at h
        omega
    have hjne : j ≠ f := by
      rcases List.mem_append.mp hjmem with h | h
      · rw [List.mem_reverse, List.mem_range] at h
        omega
      · rw [List.mem_reverse, List.mem_range'_1] at h
        omega
    obtain ⟨j2, hfind2, _, _, _, hjmin0⟩ :=
      @backscan_spec tc f
        (fun j => (getE (0, 0) s.buf j).1 == 0 ||
          (getE (0, 0) s.buf j).1 == (getE (0, 0) s.buf f).1)
        hflt ⟨j, hjlt, hjne, hpj⟩
    rw [hfind] at hfind2
    have hjmin : ∀ j' < tc, 0 < dCyc tc j' f → dCyc tc j' f < dCyc tc j f →
        ((getE (0, 0) s.buf j').1 == 0 ||
          (getE (0, 0) s.buf j').1 == (getE (0, 0) s.buf f).1) = false := by
      have hj2 : j2 = j := (Option.some.injEq _ _).mp hfind2.symm
      rw [hj2] at hjmin0
      exact hjmin0
    -- show the found slot is empty
    by_contra hne0
    have hjnz : (getE (0, 0) s.buf j).1 ≠ 0 := by
      intro he
      apply hne0
      show ((getE (0, 0) s.buf j).1 == 0) = true
      rw [he]
      rfl
    have hkj : keyAt s j = k := by
      rcases Bool.or_eq_true_iff.mp hpj with h | h
      · exact absurd (beq_iff_eq.mp h) hjnz
      · have h2 := beq_iff_eq.mp h
        show keyAt s j = k
        rw [show keyAt s j = (getE (0, 0) s.buf j).1 from rfl, h2]
        exact hkf
    obtain ⟨_, _, hle_j, _⟩ := findKey_present hcnt hpaths hroom hk hjlt hkj
    have hαγ : dCyc tc home f < dCyc tc home j := by
      rcases Nat.eq_or_lt_of_le hle_j with he | h
      · exfalso
        apply hjne
        have h1 := probe_dCyc (Nat.le_of_lt hstart) hflt
        have h2 := probe_dCyc (Nat.le_of_lt hstart) hjlt
        rw [← h1, ← h2, he]
      · exact h
    have hdjf : dCyc tc j f = tc - (dCyc tc home j - dCyc tc home f) := by
      have h3 := dCyc_shift (a := home) htc (Nat.le_of_lt hαγ) (dCyc_lt tc home j htc)
      rw [probe_dCyc (Nat.le_of_lt hstart) hflt, probe_dCyc (Nat.le_of_lt hstart) hjlt] at h3
      have h4 := dCyc_add_rev hflt hjlt (fun he => hjne he.symm)
      omega
    -- otherwise every slot of the table would be occupied
    have hall : ∀ m, m < tc → keyAt s m ≠ 0 := by
      intro m hm
      have hm_eq : (home + dCyc tc home m) % tc = m := probe_dCyc (Nat.le_of_lt hstart) hm
      rcases Nat.lt_trichotomy (dCyc tc home m) (dCyc tc home j) with hc | hc | hc
      · have hp := hpaths j hjlt (by rw [hkj]; exact hk)
        rw [hkj] at hp
        have h5 := hp (dCyc tc home m) hc
        rw [hm_eq] at h5
        exact h5
      · have h6 : m = j := by
          have h1 := probe_dCyc (Nat.le_of_lt hstart) hjlt
          rw [← hm_eq, ← h1, hc]
        rw [h6]
        exact hjnz
      · have hmf : m ≠ f := by
          intro he
          rw [he] at hc
          omega
        have hdmf : dCyc tc m f = tc - (dCyc tc home m - dCyc tc home f) := by
          have hαm : dCyc tc home f < dCyc tc home m := by omega
          have h3 := dCyc_shift (a := home) htc (Nat.le_of_lt hαm) (dCyc_lt tc home m htc)
          rw [probe_dCyc (Nat.le_of_lt hstart) hflt, hm_eq] at h3
          have h4 := dCyc_add_rev hflt hm (fun he => hmf he.symm)
          omega
        have hγlt : dCyc tc home j < tc := dCyc_lt tc home j htc
        have hmlt : dCyc tc home m < tc := dCyc_lt tc home m htc
        have h7 := hjmin m hm (by omega) (by omega)
        rw [Bool.or_eq_false_iff] at h7
        intro he
        simp only [keyAt, slotAt] at he
        have h8 := beq_iff_eq.mpr he
        rw [h7.1] at h8
        exact Bool.noConfusion h8
    have hcall : ∀ a ∈ List.range tc, (fun x => keyAt s x != 0) a = true := by
      intro a ha
      rw [List.mem_range] at ha
      simp only [bne_iff_ne, ne_eq]
      exact hall a ha
    have hlen := List.countP_eq_length.mpr hcall
    rw [List.length_range] at hlen
    unfold CountWF at hcnt
    rw [← htcdef] at hcnt
    omega

end MojoMMT

namespace MojoMMT

/-- The enumeration cursor, started at the first qualifying slot at or
after position m, visits exactly the qualifying slots from m upward (the
cursor strictly increases, so the fuel never runs out). -/
theorem enumGo_filter {s : MojoMMT} (hOk : s.status = Ok) :
    ∀ (fuel m : Nat), m ≤ s.tableCount → s.tableCount - m ≤ fuel →
    enumIndicesGo s (cursorFrom s m) fuel =
      (List.range' m (s.tableCount - m)).filter
        (fun i => (getE (0, 0) s.buf i).1 != 0 && IsFirstInRun s i) := by
  intro fuel
  induction fuel with
  | zero =>
    intro m hm hfuel
    have h0 : s.tableCount - m = 0 := by omega
    rw [h0]
    rfl
  | succ n ih =>
    intro m hm hfuel
    cases hfind : (List.range' m (s.tableCount - m)).find?
        (fun i => (getE (0, 0) s.buf i).1 != 0 && IsFirstInRun s i) with
    | none =>
      have hcur : cursorFrom s m = s.tableCount := by
        unfold cursorFrom
        rw [hfind]
      rw [hcur]
      unfold enumIndicesGo
      rw [if_neg (by rintro ⟨_, h⟩; omega)]
      symm
      rw [List.filter_eq_nil_iff]
      intro a ha
      exact List.find?_eq_none.mp hfind a ha
    | some i =>
      obtain ⟨hpi, him, hiub, hmin⟩ := find?_range'_some hfind
      have hitc : i < s.tableCount := by omega
      have hcur : cursorFrom s m = i := by
        unfold cursorFrom
        rw [hfind]
      rw [hcur]
      unfold enumIndicesGo
      rw [if_pos ⟨hOk, hitc⟩, getNextIndex_cursor]
      rw [ih (i + 1) (by omega) (by omega)]
      -- split the range at i
      have happ := List.range'_append m (i - m) (s.tableCount - i) 1
      rw [show m + 1 * (i - m) = i from by omega,
        show s.tableCount - i + (i - m) = s.tableCount - m from by omega] at happ
      have hcons := List.range'_succ i (s.tableCount - i - 1) 1
      rw [show s.tableCount - i - 1 + 1 = s.tableCount - i from by omega] at hcons
      rw [← happ, List.filter_append, hcons, List.filter_cons]
      rw [if_pos hpi]
      have hnil : (List.range' m (i - m)).filter
          (fun i => (getE (0, 0) s.buf i).1 != 0 && IsFirstInRun s i) = [] := by
        rw [List.filter_eq_nil_iff]
        intro a ha
        rw [List.mem_range'_1] at ha
        have := hmin a ha.1 (by omega)
        rw [this]
        exact Bool.noConfusion
      rw [hnil, List.nil_append,
        show s.tableCount - i - 1 = s.tableCount - (i + 1) from by omega]

/-- Whole-container enumeration visits exactly the slots that are occupied
and first in their run, in increasing index order. -/
theorem enumIndices_filter {s : MojoMMT} (hOk : s.status = Ok) :
    enumIndices s = (List.range s.tableCount).filter
      (fun i => (getE (0, 0) s.buf i).1 != 0 && IsFirstInRun s i) := by
  unfold enumIndices
  rw [getFirstIndex_cursor]
  rw [enumGo_filter hOk (s.tableCount + 1) 0 (Nat.zero_le _) (by omega)]
  rw [Nat.sub_zero, ← List.range_eq_range']

end MojoMMT

/-- C5 (amended): for every MojoMultiMap state satisfying the table
invariants (well-counted, probe paths unbroken) with status ok and at
least one empty slot, whole-container enumeration via
_GetFirstIndex/_GetNextIndex visits, for each distinct stored key, exactly
one slot holding that key (the first slot of its run), so Enumerate
pushes each stored key exactly once: the pushed key list contains exactly
the stored keys and has no duplicates.  (On a completely full table the
claim fails: see the counterexample, where a stored key is never pushed.) -/
theorem C5_enumeration_corrected (hf : Nat → Nat) (s : MojoMMT)
    (hOk : s.status = Ok) (hcnt : MojoMMT.CountWF s) (hpaths : MojoMMT.PathsWF hf s)
    (hroom : s.activeCount < s.tableCount) :
    (∀ k, k ∈ MojoMMT.enumKeys s ↔
      (k ≠ 0 ∧ ∃ i, i < s.tableCount ∧ MojoMMT.keyAt s i = k)) ∧
    (MojoMMT.enumKeys s).Nodup := by
  have henum : MojoMMT.enumKeys s =
      ((List.range s.tableCount).filter
        (fun i => (getE (0, 0) s.buf i).1 != 0 && MojoMMT.IsFirstInRun s i)).map
        (fun i => (getE (0, 0) s.buf i).1) := by
    unfold MojoMMT.enumKeys
    rw [MojoMMT.enumIndices_filter hOk]
  have hfirst : ∀ x, x < s.tableCount → MojoMMT.keyAt s x ≠ 0 →
      MojoMMT.IsFirstInRun s x = true → x = MojoMMT.FindKey hf s (MojoMMT.keyAt s x) := by
    intro x hx hxz hxf
    by_contra hne
    have := MojoMMT.isFirstInRun_false_of_ne hcnt hpaths hroom hxz hx rfl hne
    rw [this] at hxf
    exact Bool.noConfusion hxf
  constructor
  · intro k
    rw [henum]
    constructor
    · intro hmem
      obtain ⟨i, himem, heq⟩ := List.mem_map.mp hmem
      obtain ⟨hir, hpi⟩ := List.mem_filter.mp himem
      obtain ⟨h1, _⟩ := Bool.and_eq_true_iff.mp hpi
      have hiz : (getE (0, 0) s.buf i).1 ≠ 0 := bne_iff_ne.mp h1
      refine ⟨by rw [← heq]; exact hiz, i, List.mem_range.mp hir, heq⟩
    · rintro ⟨hk, i, hi, hik⟩
      obtain ⟨hkf, hflt, _, _⟩ := MojoMMT.findKey_present hcnt hpaths hroom hk hi hik
      have hfz : (getE (0, 0) s.buf (MojoMMT.FindKey hf s k)).1 ≠ 0 := by
        show MojoMMT.keyAt s (MojoMMT.FindKey hf s k) ≠ 0
        rw [hkf]
        exact hk
      have hff := MojoMMT.isFirstInRun_findKey hcnt hpaths hroom hk hi hik
      refine List.mem_map.mpr ⟨MojoMMT.FindKey hf s k, List.mem_filter.mpr ⟨?_, ?_⟩, hkf⟩
      · exact List.mem_range.mpr hflt
      · rw [Bool.and_eq_true_iff]
        exact ⟨bne_iff_ne.mpr hfz, hff⟩
  · rw [henum]
    apply List.Nodup.map_on
    · intro x hx y hy hxy
      obtain ⟨hxr, hpx⟩ := List.mem_filter.mp hx
      obtain ⟨hyr, hpy⟩ := List.mem_filter.mp hy
      obtain ⟨hx1, hx2⟩ := Bool.and_eq_true_iff.mp hpx
      obtain ⟨hy1, hy2⟩ := Bool.and_eq_true_iff.mp hpy
      have hxe := hfirst x (List.mem_range.mp hxr) (bne_iff_ne.mp hx1) hx2
      have hye := hfirst y (List.mem_range.mp hyr) (bne_iff_ne.mp hy1) hy2
      rw [hxe, hye]
      show MojoMMT.FindKey hf s (MojoMMT.keyAt s x) = MojoMMT.FindKey hf s (MojoMMT.keyAt s y)
      rw [show MojoMMT.keyAt s x = MojoMMT.keyAt s y from hxy]
    · exact List.Nodup.filter _ (List.nodup_range _)

/-- Witness for C5 at a concrete input: the multimap {(1,10), (2,20)} in a
table of 4 with identity hashing. -/
theorem C5_enumeration_corrected_witness :
    let s : MojoMMT := MojoMMT.Insert id true
      (MojoMMT.Insert id true (MojoMMT.Create id true 4 4 80 30 true true true) 1 10) 2 20
    (s.status = Ok ∧ MojoMMT.CountWF s ∧ MojoMMT.PathsWF id s ∧
     s.activeCount < s.tableCount) ∧
    ((∀ k, k ∈ MojoMMT.enumKeys s ↔
      (k ≠ 0 ∧ ∃ i, i < s.tableCount ∧ MojoMMT.keyAt s i = k)) ∧
    (MojoMMT.enumKeys s).Nodup) := by
  refine ⟨⟨by decide, by unfold MojoMMT.CountWF; decide,
    by unfold MojoMMT.PathsWF; decide, by decide⟩, ?_⟩
  exact C5_enumeration_corrected id _ (by decide)
    (by unfold MojoMMT.CountWF; decide) (by unfold MojoMMT.PathsWF; decide) (by decide)

/-! ## Additional cyclic-distance algebra and counting lemmas -/

theorem dCyc_inj {tc a b c : Nat} (ha : a < tc) (hb : b < tc) (hc : c < tc)
    (h : dCyc tc a b = dCyc tc a c) : b = c := by
  have h1 := probe_dCyc (Nat.le_of_lt ha) hb
  have h2 := probe_dCyc (Nat.le_of_lt ha) hc
  rw [← h1, ← h2, h]

theorem dCyc_add_of_le {tc a b c : Nat} (ha : a < tc) (hb : b < tc) (hc : c < tc)
    (h : dCyc tc a b ≤ dCyc tc a c) :
    dCyc tc a c = dCyc tc a b + dCyc tc b c := by
  have htc : 0 < tc := by omega
  have h1 := probe_dCyc (Nat.le_of_lt ha) hb
  have h2 := probe_dCyc (Nat.le_of_lt ha) hc
  have h3 := dCyc_shift (a := a) htc h (dCyc_lt tc a c htc)
  rw [h1, h2] at h3
  omega

theorem dCyc_add_mod {tc a b c : Nat} (ha : a < tc) (hb : b < tc) (hc : c < tc) :
    dCyc tc a c = (dCyc tc a b + dCyc tc b c) % tc := by
  have htc : 0 < tc := by omega
  have h1 := probe_dCyc (Nat.le_of_lt ha) hb
  have h2 := probe_dCyc (Nat.le_of_lt hb) hc
  have h3 : (a + (dCyc tc a b + dCyc tc b c)) % tc = c := by
    rw [← Nat.add_assoc, ← Nat.mod_add_mod, h1, h2]
  have h4 := dCyc_probe (a := a) ha (Nat.mod_lt (dCyc tc a b + dCyc tc b c) htc)
  rw [Nat.add_mod_mod, h3] at h4
  exact h4

theorem setE_isSome {α : Type} (b : Option (List α)) (i : Nat) (v : α) :
    (setE b i v).isSome = b.isSome := by
  cases b
  · rfl
  · rfl

theorem setE_length {α : Type} (b : Option (List α)) (i : Nat) (v : α) :
    ((setE b i v).getD []).length = (b.getD []).length := by
  cases b
  · rfl
  · simp [setE]

theorem countP_congr_list {l : List Nat} {p q : Nat → Bool}
    (h : ∀ x ∈ l, p x = q x) : l.countP p = l.countP q := by
  induction l with
  | nil => rfl
  | cons a t ih =>
    rw [List.countP_cons, List.countP_cons, h a (List.mem_cons_self a t),
      ih (fun x hx => h x (List.mem_cons_of_mem a hx))]

theorem countP_flip {l : List Nat} {p q : Nat → Bool} {j : Nat}
    (hl : l.Nodup) (hj : j ∈ l) (hpj : p j = false) (hqj : q j = true)
    (hagree : ∀ x ∈ l, x ≠ j → p x = q x) : l.countP q = l.countP p + 1 := by
  induction l with
  | nil => exact absurd hj (List.not_mem_nil j)
  | cons a t ih =>
    rw [List.countP_cons, List.countP_cons]
    rcases List.mem_cons.mp hj with he | hm
    · subst he
      have hnt : j ∉ t := (List.nodup_cons.mp hl).1
      have hcong : t.countP p = t.countP q :=
        countP_congr_list (fun x hx => hagree x (List.mem_cons_of_mem j hx)
          (fun hxa => hnt (hxa ▸ hx)))
      rw [hpj, hqj, hcong]
      simp
    · have hanej : a ≠ j := by
        intro he
        exact (List.nodup_cons.mp hl).1 (he ▸ hm)
      rw [hagree a (List.mem_cons_self a t) hanej]
      have := ih (List.nodup_cons.mp hl).2 hm
        (fun x hx hxj => hagree x (List.mem_cons_of_mem a hx) hxj)
      omega

theorem countP_swap {l : List Nat} {p q : Nat → Bool} {i j : Nat}
    (hl : l.Nodup) (hij : i ≠ j) (hi : i ∈ l) (hj : j ∈ l)
    (hpi : p i = true) (hqi : q i = false) (hpj : p j = false) (hqj : q j = true)
    (hagree : ∀ x ∈ l, x ≠ i → x ≠ j → p x = q x) : l.countP p = l.countP q := by
  -- compare both with the predicate r that is false at i and j
  have hflipq : l.countP q = l.countP (fun x => if x = i ∨ x = j then false else q x) + 1 := by
    apply countP_flip hl hj
    · rw [if_pos (Or.inr rfl)]
    · exact hqj
    · intro x hx hxj
      by_cases hxi : x = i
      · subst hxi
        rw [if_pos (Or.inl rfl), hqi]
      · rw [if_neg (by tauto)]
  have hflipp : l.countP p = l.countP (fun x => if x = i ∨ x = j then false else q x) + 1 := by
    apply countP_flip hl hi
    · rw [if_pos (Or.inl rfl)]
    · exact hpi
    · intro x hx hxi
      by_cases hxj : x = j
      · subst hxj
        rw [if_pos (Or.inr rfl), hpj]
      · rw [if_neg (by tauto), hagree x hx hxi hxj]
  rw [hflipq, hflipp]

theorem getE_setE_self_dflt {α : Type} {b : Option (List α)} {d : α} {i : Nat} :
    getE d (setE b i d) i = d := by
  cases b with
  | none => rfl
  | some l =>
    simp only [getE, setE, Option.map_some', Option.getD_some]
    rcases Nat.lt_or_ge i l.length with h | h
    · rw [List.getD_eq_getElem?_getD, List.getElem?_set_self (by simpa using h)]
      rfl
    · rw [List.set_eq_of_length_le h, List.getD_eq_default l d (by simpa using h)]

theorem dCyc_succ {tc i x : Nat} (hi : i < tc) (hx : x < tc) (hne : x ≠ i) (h1 : 1 < tc) :
    dCyc tc i x = 1 + dCyc tc ((i + 1) % tc) x := by
  have h2 : dCyc tc i ((i + 1) % tc) = 1 := dCyc_probe hi h1
  have h3 : 1 ≤ dCyc tc i x := by
    rcases Nat.eq_zero_or_pos (dCyc tc i x) with h0 | h
    · exact absurd (dCyc_zero_eq hi hx h0).symm hne
    · omega
  have h4 := dCyc_add_of_le hi (Nat.mod_lt _ (show 0 < tc by omega)) hx
    (by rw [h2]; exact h3)
  rw [h2] at h4
  omega

namespace MojoMMT

/-- Effect of the clearing walk: fields and buffer shape are preserved, the
count stays consistent, slots outside the walked window are untouched, and
slots inside are untouched or cleared. -/
theorem clearHits_inv {hit : KV → Bool} :
    ∀ (d : Nat) (s : MojoMMT) (i : Nat),
    i < s.tableCount → d < s.tableCount →
    (∀ u, u < d → (getE (0, 0) s.buf ((i + u) % s.tableCount)).1 ≠ 0) →
    (clearHits hit s i d).tableCount = s.tableCount ∧
    (clearHits hit s i d).allocCount = s.allocCount ∧
    (clearHits hit s i d).buf.isSome = s.buf.isSome ∧
    ((clearHits hit s i d).buf.getD []).length = (s.buf.getD []).length ∧
    (CountWF s → CountWF (clearHits hit s i d)) ∧
    (∀ x, ¬ (x < s.tableCount ∧ dCyc s.tableCount i x < d) →
      getE (0, 0) (clearHits hit s i d).buf x = getE (0, 0) s.buf x) ∧
    (∀ x, x < s.tableCount → dCyc s.tableCount i x < d →
      getE (0, 0) (clearHits hit s i d).buf x = getE (0, 0) s.buf x ∨
      getE (0, 0) (clearHits hit s i d).buf x = (0, 0)) := by
  intro d
  induction d with
  | zero =>
    intro s i hi hd hocc
    exact ⟨rfl, rfl, rfl, rfl, fun h => h, fun x _ => rfl,
      fun x hx h0 => absurd h0 (by omega)⟩
  | succ n ih =>
    intro s i hi hd hocc
    have htc : 0 < s.tableCount := by omega
    have htc1 : 1 < s.tableCount := by omega
    have hi1lt : (i + 1) % s.tableCount < s.tableCount := Nat.mod_lt _ htc
    have hi0 : (i + 0) % s.tableCount = i := by
      rw [Nat.add_zero, Nat.mod_eq_of_lt hi]
    have hocc0 : (getE (0, 0) s.buf i).1 ≠ 0 := by
      have h := hocc 0 (by omega)
      rwa [hi0] at h
    have hpos : ∀ u, ((i + 1) % s.tableCount + u) % s.tableCount =
        (i + (1 + u)) % s.tableCount := by
      intro u
      rw [Nat.mod_add_mod]
      congr 1
      omega
    have hposne : ∀ u, u + 1 < s.tableCount →
        (i + (1 + u)) % s.tableCount ≠ i := by
      intro u hu he
      have hd2 := dCyc_probe (a := i) hi (show 1 + u < s.tableCount by omega)
      rw [he] at hd2
      rw [dCyc_refl] at hd2
      omega
    have hback : dCyc s.tableCount ((i + 1) % s.tableCount) i = s.tableCount - 1 := by
      have h2 : dCyc s.tableCount i ((i + 1) % s.tableCount) = 1 := dCyc_probe hi htc1
      have hne : i ≠ (i + 1) % s.tableCount := by
        intro he
        rw [← he] at h2
        rw [dCyc_refl] at h2
        omega
      have h3 := dCyc_add_rev hi hi1lt hne
      omega
    cases hhit : hit (getE (0, 0) s.buf i) with
    | false =>
      have hstep : clearHits hit s i (n + 1) =
          clearHits hit s ((i + 1) % s.tableCount) n := by
        show clearHits hit
          (if hit (getE (0, 0) s.buf i) then
            { s with buf := setE s.buf i (0, 0), activeCount := s.activeCount - 1 }
           else s) ((i + 1) % s.tableCount) n = _
        rw [hhit]
        simp
      have hocc' : ∀ u, u < n →
          (getE (0, 0) s.buf (((i + 1) % s.tableCount + u) % s.tableCount)).1 ≠ 0 := by
        intro u hu
        rw [hpos u]
        exact hocc (1 + u) (by omega)
      obtain ⟨h1, h2, h3, h4, h5, h6, h7⟩ := ih s ((i + 1) % s.tableCount) hi1lt (by omega) hocc'
      rw [hstep]
      refine ⟨h1, h2, h3, h4, h5, ?_, ?_⟩
      · intro x hx
        apply h6
        rintro ⟨hxlt, hxd⟩
        apply hx
        refine ⟨hxlt, ?_⟩
        by_cases hxe : x = i
        · rw [hxe, dCyc_refl]
          omega
        · rw [dCyc_succ hi hxlt hxe htc1]
          omega
      · intro x hxlt hxd
        by_cases hxe : x = i
        · left
          rw [hxe]
          apply h6
          rintro ⟨_, hcon⟩
          rw [hback] at hcon
          omega
        · exact h7 x hxlt (by rw [dCyc_succ hi hxlt hxe htc1] at hxd; omega)
    | true =>
      have hstep : clearHits hit s i (n + 1) =
          clearHits hit
            { s with buf := setE s.buf i (0, 0), activeCount := s.activeCount - 1 }
            ((i + 1) % s.tableCount) n := by
        show clearHits hit
          (if hit (getE (0, 0) s.buf i) then
            { s with buf := setE s.buf i (0, 0), activeCount := s.activeCount - 1 }
           else s) ((i + 1) % s.tableCount) n = _
        rw [hhit]
        simp
      set s1 : MojoMMT :=
        { s with buf := setE s.buf i (0, 0), activeCount := s.activeCount - 1 } with hs1
      have hs1tc : s1.tableCount = s.tableCount := rfl
      have hs1get : ∀ x, x ≠ i → getE (0, 0) s1.buf x = getE (0, 0) s.buf x := by
        intro x hx
        exact getE_setE_ne (fun he => hx he.symm)
      have hs1i : getE (0, 0) s1.buf i = (0, 0) := getE_setE_self_dflt
      have hocc' : ∀ u, u < n →
          (getE (0, 0) s1.buf (((i + 1) % s1.tableCount + u) % s1.tableCount)).1 ≠ 0 := by
        intro u hu
        show (getE (0, 0) s1.buf (((i + 1) % s.tableCount + u) % s.tableCount)).1 ≠ 0
        rw [hpos u, hs1get _ (hposne u (by omega))]
        exact hocc (1 + u) (by omega)
      obtain ⟨h1, h2, h3, h4, h5, h6, h7⟩ := ih s1 ((i + 1) % s.tableCount)
        (by rw [hs1tc]; exact hi1lt) (by rw [hs1tc]; omega) hocc'
      rw [hs1tc] at h1 h6 h7
      rw [hstep]
      have hcnt1 : CountWF s → CountWF s1 := by
        intro hc
        unfold CountWF at hc ⊢
        have hflip := countP_flip (l := List.range s.tableCount)
          (p := fun x => keyAt s1 x != 0) (q := fun x => keyAt s x != 0) (j := i)
          (List.nodup_range _) (List.mem_range.mpr hi)
          (by
            simp only [keyAt, slotAt, hs1i]
            rfl)
          (by
            simp only [keyAt, slotAt]
            exact bne_iff_ne.mpr hocc0)
          (by
            intro x hx hxi
            simp only [keyAt, slotAt]
            rw [hs1get x hxi])
        show s1.activeCount = (List.range s1.tableCount).countP (fun x => keyAt s1 x != 0)
        have hac : s1.activeCount = s.activeCount - 1 := rfl
        have htceq : s1.tableCount = s.tableCount := rfl
        rw [hac, htceq]
        omega
      refine ⟨h1, h2, ?_, ?_, fun hc => h5 (hcnt1 hc), ?_, ?_⟩
      · rw [h3]
        exact setE_isSome s.buf i (0, 0)
      · rw [h4]
        exact setE_length s.buf i (0, 0)
      · intro x hx
        have hxi : x ≠ i := by
          intro he
          apply hx
          rw [he, dCyc_refl]
          exact ⟨hi, by omega⟩
        have := h6 x (by
          rintro ⟨hxlt, hxd⟩
          apply hx
          refine ⟨hxlt, ?_⟩
          rw [dCyc_succ hi hxlt hxi htc1]
          omega)
        rw [this]
        exact hs1get x hxi
      · intro x hxlt hxd
        by_cases hxe : x = i
        · right
          rw [hxe]
          have h8 := h6 i (by
            rintro ⟨_, hcon⟩
            rw [hback] at hcon
            omega)
          rw [h8]
          exact hs1i
        · have h9 := h7 x hxlt (by rw [dCyc_succ hi hxlt hxe htc1] at hxd; omega)
          rcases h9 with h9 | h9
          · left
            rw [h9]
            exact hs1get x hxe
          · right
            exact h9

end MojoMMT

namespace MojoMMT

/-- The scanning loop of the multimap removals, characterized: started at
i with the first empty slot d steps ahead (and enough fuel), it clears the
hits of the walked stretch and reports how many slots it walked. -/
theorem removeScan_eq {hit : KV → Bool} :
    ∀ (d : Nat) (s : MojoMMT) (i c fuel : Nat),
    d < fuel → d < s.tableCount → i < s.tableCount →
    (∀ u, u < d → (getE (0, 0) s.buf ((i + u) % s.tableCount)).1 ≠ 0) →
    (getE (0, 0) s.buf ((i + d) % s.tableCount)).1 = 0 →
    removeScan hit s i c fuel = (clearHits hit s i d, c + d) := by
  intro d
  induction d with
  | zero =>
    intro s i c fuel hfuel htc hi hocc hemp
    have hi0 : (i + 0) % s.tableCount = i := by
      rw [Nat.add_zero, Nat.mod_eq_of_lt hi]
    rw [hi0] at hemp
    cases fuel with
    | zero => omega
    | succ m =>
      unfold removeScan
      rw [if_pos (beq_iff_eq.mpr hemp)]
      rfl
  | succ n ih =>
    intro s i c fuel hfuel htc hi hocc hemp
    have htc0 : 0 < s.tableCount := by omega
    have hi0 : (i + 0) % s.tableCount = i := by
      rw [Nat.add_zero, Nat.mod_eq_of_lt hi]
    have hocc0 : (getE (0, 0) s.buf i).1 ≠ 0 := by
      have h := hocc 0 (by omega)
      rwa [hi0] at h
    cases fuel with
    | zero => omega
    | succ m =>
      unfold removeScan
      rw [if_neg (by
        intro hcon
        exact hocc0 (beq_iff_eq.mp hcon))]
      dsimp only
      set s1 : MojoMMT :=
        if hit (getE (0, 0) s.buf i) then
          { s with buf := setE s.buf i (0, 0), activeCount := s.activeCount - 1 }
        else s with hs1
      have hs1tc : s1.tableCount = s.tableCount := by
        rw [hs1]
        split
        · rfl
        · rfl
      have hs1get : ∀ x, x ≠ i → getE (0, 0) s1.buf x = getE (0, 0) s.buf x := by
        intro x hx
        rw [hs1]
        split
        · exact getE_setE_ne (fun he => hx he.symm)
        · rfl
      have hpos : ∀ u, ((i + 1) % s.tableCount + u) % s.tableCount =
          (i + (1 + u)) % s.tableCount := by
        intro u
        rw [Nat.mod_add_mod]
        congr 1
        omega
      have hposne : ∀ u, u + 1 < s.tableCount →
          (i + (1 + u)) % s.tableCount ≠ i := by
        intro u hu he
        have hd2 := dCyc_probe (a := i) hi (show 1 + u < s.tableCount by omega)
        rw [he, dCyc_refl] at hd2
        omega
      have hocc' : ∀ u, u < n →
          (getE (0, 0) s1.buf (((i + 1) % s.tableCount + u) % s1.tableCount)).1 ≠ 0 := by
        intro u hu
        rw [hs1tc, hpos u, hs1get _ (hposne u (by omega))]
        exact hocc (1 + u) (by omega)
      have hemp' : (getE (0, 0) s1.buf
          (((i + 1) % s.tableCount + n) % s1.tableCount)).1 = 0 := by
        rw [hs1tc, hpos n, hs1get _ (hposne n (by omega))]
        rw [show i + (1 + n) = i + (n + 1) from by omega]
        exact hemp
      have hrec := ih s1 ((i + 1) % s.tableCount) (c + 1) m (by omega)
        (by rw [hs1tc]; omega) (by rw [hs1tc]; exact Nat.mod_lt _ htc0)
        hocc' hemp'
      rw [hrec]
      have hclear : clearHits hit s i (n + 1) =
          clearHits hit s1 ((i + 1) % s.tableCount) n := rfl
      rw [hclear, show c + (n + 1) = c + 1 + n from by omega]

end MojoMMT

namespace MojoMMT

/-- Passing an empty slot advances the fix-up invariant. -/
theorem fixInv_step_skip {hf : Nat → Nat} {f cnt t : Nat} {s : MojoMMT}
    (hinv : FixInv hf f cnt t s)
    (hemp : (getE (0, 0) s.buf ((f + t) % s.tableCount)).1 = 0) :
    FixInv hf f cnt (t + 1) s := by
  obtain ⟨hflt, hcltc, hbuf, hcw, hdis, htail, he, hii, hiii⟩ := hinv
  have htc : 0 < s.tableCount := by omega
  refine ⟨hflt, hcltc, hbuf, hcw, hdis, htail, he, ?_, ?_⟩
  · intro p hp hocc hnarc
    apply hii p hp hocc
    rintro ⟨ha1, ha2⟩
    rcases Nat.lt_or_ge (dCyc s.tableCount f p) (t + 1) with hc | hc
    · have hdp : dCyc s.tableCount f p = t := by omega
      have hpi : p = (f + t) % s.tableCount := by
        have h1 := probe_dCyc (Nat.le_of_lt hflt) hp
        rw [hdp] at h1
        exact h1.symm
      apply hocc
      show (getE (0, 0) s.buf p).1 = 0
      rw [hpi]
      exact hemp
    · exact hnarc ⟨hc, ha2⟩
  · intro p hp hocc harc
    unfold InArc at harc
    exact hiii p hp hocc ⟨by omega, harc.2⟩

end MojoMMT

namespace MojoMMT

/-- Processing an occupied slot of the scanned stretch (reinserting its
pair at its probe position) advances the fix-up invariant. -/
theorem fixInv_step_move {hf : Nat → Nat} {f cnt t : Nat} {s : MojoMMT}
    (ht2 : t ≤ cnt) (hinv : FixInv hf f cnt t s)
    (hocc : (getE (0, 0) s.buf ((f + t) % s.tableCount)).1 ≠ 0) :
    FixInv hf f cnt (t + 1) (Reinsert hf s ((f + t) % s.tableCount)) := by
  obtain ⟨hflt, hcltc, hbuf, hcw, hdis, htail, hemp, hii, hiii⟩ := hinv
  have htc : 0 < s.tableCount := by omega
  set i := (f + t) % s.tableCount with hidef
  have hilt : i < s.tableCount := Nat.mod_lt _ htc
  have hdfi : dCyc s.tableCount f i = t := dCyc_probe hflt (by omega)
  have htcnt : t < cnt := by
    rcases Nat.eq_or_lt_of_le ht2 with he | h
    · exfalso
      apply hocc
      show (getE (0, 0) s.buf i).1 = 0
      rw [hidef, he]
      exact hemp
    · exact h
  set e0 := (f + cnt) % s.tableCount with he0def
  have he0lt : e0 < s.tableCount := Nat.mod_lt _ htc
  have hdfe : dCyc s.tableCount f e0 = cnt := dCyc_probe hflt (by omega)
  have hie : i ≠ e0 := by
    intro he
    rw [he, hdfe] at hdfi
    omega
  set P := getE (0, 0) s.buf i with hPdef
  have hP1 : P.1 ≠ 0 := hocc
  set hm := hf P.1 % s.tableCount with hhmdef
  have hmlt : hm < s.tableCount := Nat.mod_lt _ htc
  set ni := FindPair hf s P.1 P.2 with hnidef
  have hempe : (getE (0, 0) s.buf e0).1 = 0 := hemp
  have hex : ∃ j, j < s.tableCount ∧
      ((getE (0, 0) s.buf j).1 == 0 ||
        ((getE (0, 0) s.buf j).1 == P.1 && (getE (0, 0) s.buf j).2 == P.2)) = true := by
    refine ⟨e0, he0lt, ?_⟩
    rw [show ((getE (0, 0) s.buf e0).1 == 0) = true from beq_iff_eq.mpr hempe, Bool.true_or]
  obtain ⟨hgood, hnilt, hmin⟩ := @femIdx_spec s.tableCount hm
    (fun j => (getE (0, 0) s.buf j).1 == 0 ||
      ((getE (0, 0) s.buf j).1 == P.1 && (getE (0, 0) s.buf j).2 == P.2)) hmlt hex
  rw [show femIdx s.tableCount hm
      (fun j => (getE (0, 0) s.buf j).1 == 0 ||
        ((getE (0, 0) s.buf j).1 == P.1 && (getE (0, 0) s.buf j).2 == P.2)) = ni
    from rfl] at hgood hnilt hmin
  have hgoodi : ((getE (0, 0) s.buf i).1 == 0 ||
      ((getE (0, 0) s.buf i).1 == P.1 && (getE (0, 0) s.buf i).2 == P.2)) = true := by
    rw [← hPdef]
    simp
  have hnile : dCyc s.tableCount hm ni ≤ dCyc s.tableCount hm i := by
    by_contra hgt
    push_neg at hgt
    have h := hmin (dCyc s.tableCount hm i) hgt
    rw [probe_dCyc (Nat.le_of_lt hmlt) hilt] at h
    rw [h] at hgoodi
    exact Bool.noConfusion hgoodi
  by_cases hni : ni = i
  · -- the pair is already at its probe position: nothing moves
    have hcond : ¬ (FindPair hf s (getE (0, 0) s.buf i).1 (getE (0, 0) s.buf i).2 ≠ i) := by
      rw [← hPdef, ← hnidef]
      exact fun h => h hni
    have hre : Reinsert hf s i = s := by
      unfold Reinsert
      dsimp only
      rw [if_neg hcond]
    rw [hre]
    refine ⟨hflt, hcltc, hbuf, hcw, hdis, htail, hemp, ?_, ?_⟩
    · intro p hp hocp hnarc
      by_cases hdp : InArc s.tableCount f t cnt p
      · unfold InArc at hdp hnarc
        have hdpt : dCyc s.tableCount f p = t := by omega
        have hpi : p = i := by
          have h1 := probe_dCyc (Nat.le_of_lt hflt) hp
          rw [hdpt] at h1
          rw [hidef, ← h1]
        rw [hpi]
        show CurPathAt s hm i
        unfold CurPathAt
        intro u hu
        rw [hni] at hmin
        have h := hmin u hu
        rw [Bool.or_eq_false_iff] at h
        intro he
        simp only [keyAt, slotAt] at he
        have h2 := beq_iff_eq.mpr he
        rw [h.1] at h2
        exact Bool.noConfusion h2
      · exact hii p hp hocp hdp
    · intro p hp hocp harc
      unfold InArc at harc
      exact hiii p hp hocp ⟨by omega, harc.2⟩
  · -- the pair moves to the earlier slot ni
    have hcond : FindPair hf s (getE (0, 0) s.buf i).1 (getE (0, 0) s.buf i).2 ≠ i := by
      rw [← hPdef, ← hnidef]
      exact hni
    have hre : Reinsert hf s i = { s with buf := setE (setE s.buf ni P) i (0, 0) } := by
      unfold Reinsert
      dsimp only
      rw [if_pos hcond, ← hPdef, ← hnidef]
    rw [hre]
    set s' : MojoMMT := { s with buf := setE (setE s.buf ni P) i (0, 0) } with hs'def
    have hg_i : getE (0, 0) s'.buf i = (0, 0) := getE_setE_self_dflt
    have hlen : (s.buf.getD []).length = s.allocCount := hbuf.2.1
    have hg_ni : getE (0, 0) s'.buf ni = P := by
      rw [show s'.buf = setE (setE s.buf ni P) i (0, 0) from rfl,
        getE_setE_ne (Ne.symm hni)]
      apply getE_setE_self hbuf.1
      rw [hlen]
      have h22 := hbuf.2.2
      omega
    have hg_other : ∀ x, x ≠ i → x ≠ ni →
        getE (0, 0) s'.buf x = getE (0, 0) s.buf x := by
      intro x hxi hxni
      rw [show s'.buf = setE (setE s.buf ni P) i (0, 0) from rfl,
        getE_setE_ne (fun he => hxi he.symm), getE_setE_ne (fun he => hxni he.symm)]
    have hni_strict : dCyc s.tableCount hm ni < dCyc s.tableCount hm i := by
      rcases Nat.eq_or_lt_of_le hnile with he | h
      · exact absurd (dCyc_inj hmlt hnilt hilt he) hni
      · exact h
    have hni_empty : (getE (0, 0) s.buf ni).1 = 0 := by
      rcases Bool.or_eq_true_iff.mp hgood with h | h
      · exact beq_iff_eq.mp h
      · exfalso
        rw [Bool.and_eq_true_iff] at h
        have h1 := beq_iff_eq.mp h.1
        have h2 := beq_iff_eq.mp h.2
        have hslot : getE (0, 0) s.buf ni = P := Prod.ext h1 h2
        have hd := hdis i hilt ni hnilt hP1
          (by show (getE (0, 0) s.buf ni).1 ≠ 0; rw [h1]; exact hP1) (Ne.symm hni)
        apply hd
        show getE (0, 0) s.buf i = getE (0, 0) s.buf ni
        rw [← hPdef, hslot]
    have harci : InArc s.tableCount f t cnt i := ⟨by omega, by omega⟩
    have hwpi : WeakPathAt s f cnt hm i := hiii i hilt hocc harci
    have hni_arc : dCyc s.tableCount f ni < cnt := by
      have h := hwpi (dCyc s.tableCount hm ni) hni_strict
      rw [probe_dCyc (Nat.le_of_lt hmlt) hnilt] at h
      rcases h with h | h
      · exact absurd hni_empty h
      · exact h
    have hni_ne_e : ni ≠ e0 := by
      intro he
      rw [he, hdfe] at hni_arc
      omega
    have hni_path : ∀ u, u < dCyc s.tableCount hm ni →
        (getE (0, 0) s'.buf ((hm + u) % s.tableCount)).1 ≠ 0 := by
      intro u hu
      have hq := hmin u hu
      rw [Bool.or_eq_false_iff] at hq
      have hqlt : (hm + u) % s.tableCount < s.tableCount := Nat.mod_lt _ htc
      have hqne_i : (hm + u) % s.tableCount ≠ i := by
        intro he
        have hd := dCyc_probe (a := hm) hmlt
          (lt_trans hu (dCyc_lt s.tableCount hm ni htc))
        rw [he] at hd
        omega
      by_cases hqni : (hm + u) % s.tableCount = ni
      · rw [hqni, hg_ni]
        exact hP1
      · rw [hg_other _ hqne_i hqni]
        intro he
        have h2 := beq_iff_eq.mpr he
        rw [hq.1] at h2
        exact Bool.noConfusion h2
    -- the invariant components for the updated table
    have hbuf' : BufWF s' := by
      refine ⟨?_, ?_, ?_⟩
      · show (setE (setE s.buf ni P) i (0, 0)).isSome = true
        rw [setE_isSome, setE_isSome]
        exact hbuf.1
      · show ((setE (setE s.buf ni P) i (0, 0)).getD []).length = s.allocCount
        rw [setE_length, setE_length]
        exact hlen
      · exact hbuf.2.2
    have hcw' : CountWF s' := by
      unfold CountWF at hcw ⊢
      have hswap := countP_swap (l := List.range s.tableCount)
        (p := fun x => keyAt s x != 0) (q := fun x => keyAt s' x != 0)
        (i := i) (j := ni) (List.nodup_range _) (Ne.symm hni)
        (List.mem_range.mpr hilt) (List.mem_range.mpr hnilt)
        (by
          show ((getE (0, 0) s.buf i).1 != 0) = true
          exact bne_iff_ne.mpr hocc)
        (by
          show ((getE (0, 0) s'.buf i).1 != 0) = false
          rw [hg_i]
          rfl)
        (by
          show ((getE (0, 0) s.buf ni).1 != 0) = false
          rw [hni_empty]
          rfl)
        (by
          show ((getE (0, 0) s'.buf ni).1 != 0) = true
          rw [hg_ni]
          exact bne_iff_ne.mpr hP1)
        (by
          intro x _ hxi hxni
          show ((getE (0, 0) s.buf x).1 != 0) = ((getE (0, 0) s'.buf x).1 != 0)
          rw [hg_other x hxi hxni])
      show s'.activeCount = (List.range s'.tableCount).countP (fun x => keyAt s' x != 0)
      rw [show s'.activeCount = s.activeCount from rfl,
        show s'.tableCount = s.tableCount from rfl]
      omega
    have hdis' : DistinctWF s' := by
      intro x hx y hy hocx hocy hxy
      have hx' : x < s.tableCount := hx
      have hy' : y < s.tableCount := hy
      have hxine : x ≠ i := by
        intro he
        apply hocx
        show (getE (0, 0) s'.buf x).1 = 0
        rw [he, hg_i]
      have hyine : y ≠ i := by
        intro he
        apply hocy
        show (getE (0, 0) s'.buf y).1 = 0
        rw [he, hg_i]
      by_cases hxni : x = ni
      · have hyni : y ≠ ni := by
          intro he
          exact hxy (by rw [hxni, he])
        show getE (0, 0) s'.buf x ≠ getE (0, 0) s'.buf y
        rw [hxni, hg_ni, hg_other y hyine hyni]
        have := hdis i hilt y hy' hP1
          (by
            show (getE (0, 0) s.buf y).1 ≠ 0
            rw [← hg_other y hyine hyni]
            exact hocy) (fun he => hyine he.symm)
        exact this
      · by_cases hyni : y = ni
        · show getE (0, 0) s'.buf x ≠ getE (0, 0) s'.buf y
          rw [hyni, hg_ni, hg_other x hxine hxni]
          have := hdis x hx' i hilt
            (by
              show (getE (0, 0) s.buf x).1 ≠ 0
              rw [← hg_other x hxine hxni]
              exact hocx) hP1 hxine
          exact this
        · show getE (0, 0) s'.buf x ≠ getE (0, 0) s'.buf y
          rw [hg_other x hxine hxni, hg_other y hyine hyni]
          exact hdis x hx' y hy'
            (by
              show (getE (0, 0) s.buf x).1 ≠ 0
              rw [← hg_other x hxine hxni]
              exact hocx)
            (by
              show (getE (0, 0) s.buf y).1 ≠ 0
              rw [← hg_other y hyine hyni]
              exact hocy) hxy
    have htail' : TailWF s' := by
      intro x hx
      have hx' : s.tableCount ≤ x := hx
      have hxi : x ≠ i := by omega
      have hxni : x ≠ ni := by omega
      show getE (0, 0) s'.buf x = (0, 0)
      rw [hg_other x hxi hxni]
      exact htail x hx
    have hemp' : keyAt s' ((f + cnt) % s'.tableCount) = 0 := by
      show (getE (0, 0) s'.buf e0).1 = 0
      rw [hg_other e0 (fun he => hie he.symm) (fun he => hni_ne_e he.symm), hempe]
    refine ⟨hflt, hcltc, hbuf', hcw', hdis', htail', hemp', ?_, ?_⟩
    · -- processed and outside slots keep full probe paths
      intro p hp hocp hnarc
      have hp' : p < s.tableCount := hp
      have hnarc0 : ¬ InArc s.tableCount f (t + 1) cnt p := hnarc
      have hpine : p ≠ i := by
        intro he
        apply hocp
        show (getE (0, 0) s'.buf p).1 = 0
        rw [he, hg_i]
      by_cases hpni : p = ni
      · rw [hpni]
        show CurPathAt s' (homeOf hf s' (keyAt s' ni)) ni
        have hkeq : keyAt s' ni = P.1 := by
          show (getE (0, 0) s'.buf ni).1 = P.1
          rw [hg_ni]
        rw [hkeq]
        show CurPathAt s' hm ni
        unfold CurPathAt
        intro u hu
        exact hni_path u hu
      · -- p untouched: its old path works, the emptied slot i is not on it
        have hkeq : keyAt s' p = keyAt s p := by
          show (getE (0, 0) s'.buf p).1 = (getE (0, 0) s.buf p).1
          rw [hg_other p hpine hpni]
        have hocsp : keyAt s p ≠ 0 := by
          rw [← hkeq]
          exact hocp
        have hnarc' : ¬ InArc s.tableCount f t cnt p := by
          unfold InArc at hnarc0 ⊢
          rintro ⟨h1, h2⟩
          apply hnarc0
          refine ⟨?_, h2⟩
          rcases Nat.eq_or_lt_of_le h1 with he | h
          · exact absurd (dCyc_inj hflt hp' hilt (by omega)) hpine
          · omega
        have hcp := hii p hp' hocsp hnarc'
        show CurPathAt s' (homeOf hf s' (keyAt s' p)) p
        rw [hkeq]
        show CurPathAt s' (homeOf hf s (keyAt s p)) p
        unfold CurPathAt
        intro u hu
        have hu' : u < dCyc s.tableCount (homeOf hf s (keyAt s p)) p := hu
        show (getE (0, 0) s'.buf ((homeOf hf s (keyAt s p) + u) % s.tableCount)).1 ≠ 0
        have hq := hcp u hu'
        set hmp := homeOf hf s (keyAt s p) with hmpdef
        have hmplt : hmp < s.tableCount := Nat.mod_lt _ htc
        have hqlt : (hmp + u) % s.tableCount < s.tableCount := Nat.mod_lt _ htc
        by_cases hqni : (hmp + u) % s.tableCount = ni
        · rw [hqni]
          show (getE (0, 0) s'.buf ni).1 ≠ 0
          rw [hg_ni]
          exact hP1
        · by_cases hqi : (hmp + u) % s.tableCount = i
          · -- impossible: the path of p would have to cross the empty boundary
            exfalso
            have hdu : dCyc s.tableCount hmp i = u := by
              have hd := dCyc_probe (a := hmp) hmplt
                (lt_trans hu' (dCyc_lt s.tableCount hmp p htc))
              rw [hqi] at hd
              exact hd
            have hbeta : dCyc s.tableCount hmp p = u + dCyc s.tableCount i p := by
              have := dCyc_add_of_le hmplt hilt hp' (by omega)
              rw [hdu] at this
              exact this
            have hip_pos : 0 < dCyc s.tableCount i p := by
              rcases Nat.eq_zero_or_pos (dCyc s.tableCount i p) with h0 | h
              · exact absurd (dCyc_zero_eq hilt hp' h0) (fun he => hpine he.symm)
              · exact h
            have hie_eq : dCyc s.tableCount i e0 = cnt - t := by
              have := dCyc_add_of_le hflt hilt he0lt (by omega)
              rw [hdfi, hdfe] at this
              omega
            rcases Nat.lt_trichotomy (dCyc s.tableCount i p) (dCyc s.tableCount i e0)
              with hc | hc | hc
            · -- p would lie inside the unprocessed stretch
              have hdfp : dCyc s.tableCount f p = t + dCyc s.tableCount i p := by
                have := dCyc_add_mod (b := i) hflt hilt hp'
                rw [hdfi] at this
                rw [this, Nat.mod_eq_of_lt (by omega)]
              apply hnarc0
              show t + 1 ≤ dCyc s.tableCount f p ∧ dCyc s.tableCount f p < cnt
              omega
            · -- p would be the empty boundary slot
              have := dCyc_inj hilt hp' he0lt hc
              rw [this] at hocsp
              exact hocsp hempe
            · -- the empty boundary slot would lie on p's probe path
              have hde : dCyc s.tableCount hmp e0 = u + dCyc s.tableCount i e0 := by
                have h6 := dCyc_add_mod (b := i) hmplt hilt he0lt
                rw [hdu] at h6
                have h5 : dCyc s.tableCount hmp p < s.tableCount := dCyc_lt _ _ _ htc
                have hlt2 : u + dCyc s.tableCount i e0 < s.tableCount := by omega
                rw [h6, Nat.mod_eq_of_lt hlt2]
              have hq2 := hcp (dCyc s.tableCount hmp e0) (by rw [hde, hbeta]; omega)
              have hpr := probe_dCyc (Nat.le_of_lt hmplt) he0lt
              rw [hpr] at hq2
              exact hq2 hempe
          · rw [hg_other _ hqi hqni]
            exact hq
    · -- waiting slots keep weak probe paths
      intro p hp hocp harc
      have hp' : p < s.tableCount := hp
      have harc0 : InArc s.tableCount f (t + 1) cnt p := harc
      unfold InArc at harc0
      have hpine : p ≠ i := by
        intro he
        rw [he, hdfi] at harc0
        omega
      by_cases hpni : p = ni
      · rw [hpni]
        show WeakPathAt s' f cnt (homeOf hf s' (keyAt s' ni)) ni
        have hkeq : keyAt s' ni = P.1 := by
          show (getE (0, 0) s'.buf ni).1 = P.1
          rw [hg_ni]
        rw [hkeq]
        show WeakPathAt s' f cnt hm ni
        unfold WeakPathAt
        intro u hu
        left
        exact hni_path u hu
      · have hkeq : keyAt s' p = keyAt s p := by
          show (getE (0, 0) s'.buf p).1 = (getE (0, 0) s.buf p).1
          rw [hg_other p hpine hpni]
        have hocsp : keyAt s p ≠ 0 := by
          rw [← hkeq]
          exact hocp
        have hwp := hiii p hp' hocsp ⟨by omega, harc0.2⟩
        show WeakPathAt s' f cnt (homeOf hf s' (keyAt s' p)) p
        rw [hkeq]
        show WeakPathAt s' f cnt (homeOf hf s (keyAt s p)) p
        unfold WeakPathAt
        intro u hu
        have hu' : u < dCyc s.tableCount (homeOf hf s (keyAt s p)) p := hu
        rcases hwp u hu' with h | h
        · by_cases hqi : (homeOf hf s (keyAt s p) + u) % s.tableCount = i
          · right
            show dCyc s.tableCount f ((homeOf hf s (keyAt s p) + u) % s.tableCount) < cnt
            rw [hqi, hdfi]
            omega
          · by_cases hqni : (homeOf hf s (keyAt s p) + u) % s.tableCount = ni
            · left
              show (getE (0, 0) s'.buf ((homeOf hf s (keyAt s p) + u) % s.tableCount)).1 ≠ 0
              rw [hqni, hg_ni]
              exact hP1
            · left
              show (getE (0, 0) s'.buf ((homeOf hf s (keyAt s p) + u) % s.tableCount)).1 ≠ 0
              rw [hg_other _ hqi hqni]
              exact h
        · right
          exact h

end MojoMMT

namespace MojoMMT

theorem reinsert_tableCount (hf : Nat → Nat) (s : MojoMMT) (i : Nat) :
    (Reinsert hf s i).tableCount = s.tableCount := by
  unfold Reinsert
  dsimp only
  split
  · rfl
  · rfl

theorem fixUpGo_append (hf : Nat → Nat) :
    ∀ (L1 L2 : List Nat) (c : Nat) (s : MojoMMT), c ≤ L1.length →
    fixUpGo hf s (L1 ++ L2) c = fixUpGo hf s L1 c := by
  intro L1
  induction L1 with
  | nil =>
    intro L2 c s hc
    have hc0 : c = 0 := by
      simp at hc
      omega
    subst hc0
    cases L2 with
    | nil => rfl
    | cons a t => rfl
  | cons a t ih =>
    intro L2 c s hc
    cases c with
    | zero => rfl
    | succ n =>
      show fixUpGo hf s (a :: (t ++ L2)) (n + 1) = fixUpGo hf s (a :: t) (n + 1)
      unfold fixUpGo
      split
      · exact ih L2 n _ (by simpa using hc)
      · exact ih L2 n _ (by simpa using hc)

/-- Running the fix-up from offset t over the rest of the scanned stretch
carries the invariant to the end. -/
theorem fixUpGo_inv_aux {hf : Nat → Nat} {f cnt tc : Nat} :
    ∀ (m t : Nat) (s : MojoMMT), s.tableCount = tc → t + m = cnt + 1 → 1 ≤ t →
    FixInv hf f cnt t s →
    FixInv hf f cnt (cnt + 1)
      (fixUpGo hf s ((List.range' t m).map (fun u => (f + u) % tc)) m) := by
  intro m
  induction m with
  | zero =>
    intro t s hstc hm ht1 hinv
    have ht : t = cnt + 1 := by omega
    show FixInv hf f cnt (cnt + 1) s
    rw [← ht]
    exact hinv
  | succ n ih =>
    intro t s hstc hm ht1 hinv
    have ht2 : t ≤ cnt := by omega
    rw [List.range'_succ t n 1, List.map_cons]
    show FixInv hf f cnt (cnt + 1)
      (fixUpGo hf s ((f + t) % tc :: (List.range' (t + 1) n).map (fun u => (f + u) % tc)) (n + 1))
    unfold fixUpGo
    split
    · rename_i hoc
      have hoc' : (getE (0, 0) s.buf ((f + t) % s.tableCount)).1 ≠ 0 := by
        rw [hstc]
        exact hoc
      have hstep := fixInv_step_move ht2 hinv hoc'
      have hre : Reinsert hf s ((f + t) % s.tableCount) = Reinsert hf s ((f + t) % tc) := by
        rw [hstc]
      rw [hre] at hstep
      exact ih (t + 1) _ (by rw [reinsert_tableCount]; exact hstc) (by omega) (by omega) hstep
    · rename_i hoc
      have hoc' : (getE (0, 0) s.buf ((f + t) % s.tableCount)).1 = 0 := by
        rw [hstc]
        simpa using hoc
      have hstep := fixInv_step_skip hinv hoc'
      exact ih (t + 1) _ hstc (by omega) (by omega) hstep

end MojoMMT

namespace MojoMMT

/-- After the clearing scan (stretch of offsets [0, d) from f walked, first
empty slot at offset d), the fix-up invariant holds with nothing processed
yet: paths of slots outside the stretch never crossed it, and slots inside
keep weak paths. -/
theorem fixInv_base {hf : Nat → Nat} {s σ : MojoMMT} {f d : Nat}
    (hpaths : PathsWF hf s) (hdis : DistinctWF s) (htail : TailWF s)
    (hflt : f < s.tableCount) (hd : d < s.tableCount) (hd1 : 1 ≤ d)
    (hemp : keyAt s ((f + d) % s.tableCount) = 0)
    (hstc : σ.tableCount = s.tableCount)
    (hsbuf : BufWF σ) (hscw : CountWF σ)
    (hout : ∀ x, ¬ (x < s.tableCount ∧ dCyc s.tableCount f x < d) →
      getE (0, 0) σ.buf x = getE (0, 0) s.buf x)
    (hwin2 : ∀ x, x < s.tableCount → dCyc s.tableCount f x < d →
      getE (0, 0) σ.buf x = getE (0, 0) s.buf x ∨ getE (0, 0) σ.buf x = (0, 0)) :
    FixInv hf f d 1 σ := by
  have htc : 0 < s.tableCount := by omega
  have hslot : ∀ x, x < s.tableCount → (getE (0, 0) σ.buf x).1 ≠ 0 →
      getE (0, 0) σ.buf x = getE (0, 0) s.buf x := by
    intro x hx hocx
    by_cases hxw : dCyc s.tableCount f x < d
    · rcases hwin2 x hx hxw with h | h
      · exact h
      · exact absurd (by rw [h] : (getE (0, 0) σ.buf x).1 = 0) hocx
    · exact hout x (by tauto)
  refine ⟨by rw [hstc]; exact hflt, by rw [hstc]; exact hd, hsbuf, hscw, ?_, ?_, ?_, ?_, ?_⟩
  · -- distinctness transfers
    intro x hx y hy hocx hocy hxy
    have hx0 : x < s.tableCount := by rw [← hstc]; exact hx
    have hy0 : y < s.tableCount := by rw [← hstc]; exact hy
    have hsx := hslot x hx0 hocx
    have hsy := hslot y hy0 hocy
    show getE (0, 0) σ.buf x ≠ getE (0, 0) σ.buf y
    rw [hsx, hsy]
    exact hdis x hx0 y hy0 (by show (getE (0, 0) s.buf x).1 ≠ 0; rw [← hsx]; exact hocx)
      (by show (getE (0, 0) s.buf y).1 ≠ 0; rw [← hsy]; exact hocy) hxy
  · -- tail transfers
    intro x hx
    have hx0 : s.tableCount ≤ x := by rw [← hstc]; exact hx
    show getE (0, 0) σ.buf x = (0, 0)
    rw [hout x (by omega)]
    exact htail x hx0
  · -- the boundary slot is empty
    show (getE (0, 0) σ.buf ((f + d) % σ.tableCount)).1 = 0
    rw [hstc]
    have hde : dCyc s.tableCount f ((f + d) % s.tableCount) = d := dCyc_probe hflt hd
    rw [hout _ (by omega)]
    exact hemp
  · -- unprocessed region is the whole stretch offsets [1, d); outside it,
    -- occupied slots keep full (current-state) probe paths
    intro p hp hocp hnarc
    have hp0 : p < s.tableCount := by rw [← hstc]; exact hp
    have hnarc0 : ¬ InArc s.tableCount f 1 d p := by
      rw [← hstc]
      exact hnarc
    unfold InArc at hnarc0
    have hsp := hslot p hp0 hocp
    have hkeq : keyAt σ p = keyAt s p := by
      show (getE (0, 0) σ.buf p).1 = (getE (0, 0) s.buf p).1
      rw [hsp]
    have hocsp : keyAt s p ≠ 0 := by
      rw [← hkeq]
      exact hocp
    have hcp := hpaths p hp0 hocsp
    have hhome : homeOf hf σ (keyAt σ p) = homeOf hf s (keyAt s p) := by
      unfold homeOf
      rw [hkeq, hstc]
    show CurPathAt σ (homeOf hf σ (keyAt σ p)) p
    rw [hhome]
    unfold CurPathAt
    rw [hstc]
    intro u hu
    set hmp := homeOf hf s (keyAt s p) with hmpdef
    have hmplt : hmp < s.tableCount := Nat.mod_lt _ htc
    have hqlt : (hmp + u) % s.tableCount < s.tableCount := Nat.mod_lt _ htc
    have hq := hcp u hu
    by_cases hqw : dCyc s.tableCount f ((hmp + u) % s.tableCount) < d
    · -- the path of p cannot enter the cleared stretch
      exfalso
      have hqu : dCyc s.tableCount hmp ((hmp + u) % s.tableCount) = u :=
        dCyc_probe hmplt (lt_trans hu (dCyc_lt _ _ _ htc))
      set q := (hmp + u) % s.tableCount with hqdef
      set w := dCyc s.tableCount f q with hwdef
      have hqp_pos : 0 < dCyc s.tableCount q p := by
        rcases Nat.eq_zero_or_pos (dCyc s.tableCount q p) with h0 | h
        · exfalso
          have := dCyc_zero_eq hqlt hp0 h0
          rw [this] at hqu
          omega
        · exact h
      have hbeta : dCyc s.tableCount hmp p = u + dCyc s.tableCount q p := by
        have := dCyc_add_of_le hmplt hqlt hp0 (by omega)
        rw [hqu] at this
        exact this
      have hfd : dCyc s.tableCount f ((f + d) % s.tableCount) = d := dCyc_probe hflt hd
      have hqe : dCyc s.tableCount q ((f + d) % s.tableCount) = d - w := by
        have h1 := dCyc_add_of_le hflt hqlt (Nat.mod_lt (f + d) htc)
          (by rw [hfd]; omega)
        rw [hfd] at h1
        omega
      have hqe_lt : dCyc s.tableCount q ((f + d) % s.tableCount) < dCyc s.tableCount q p := by
        rcases Nat.lt_or_ge (dCyc s.tableCount f p) 1 with hc | hc
        · -- p is the scan start f itself
          have hpf : p = f := by
            have h0 : dCyc s.tableCount f p = 0 := by omega
            exact (dCyc_zero_eq hflt hp0 h0).symm
          have hwpos : 0 < w := by
            rcases Nat.eq_zero_or_pos w with h0 | h
            · exfalso
              have hqf : q = f := by
                have h2 : dCyc s.tableCount f q = 0 := by omega
                exact (dCyc_zero_eq hflt hqlt h2).symm
              rw [hqf, ← hpf] at hqu
              omega
            · exact h
          have hqf2 : dCyc s.tableCount q f = s.tableCount - w := by
            have hne : f ≠ q := by
              intro he
              rw [← he, dCyc_refl] at hwdef
              omega
            have := dCyc_add_rev hflt hqlt hne
            omega
          rw [hqe, hpf, hqf2]
          omega
        · -- p lies at or beyond the empty boundary
          have hqp2 : dCyc s.tableCount q p = dCyc s.tableCount f p - w := by
            have := dCyc_add_of_le hflt hqlt hp0 (by omega)
            omega
          have hpe : p ≠ (f + d) % s.tableCount := by
            intro he
            apply hocsp
            rw [he]
            exact hemp
          have hge : d - w ≤ dCyc s.tableCount q p := by omega
          rcases Nat.eq_or_lt_of_le hge with he | h
          · exfalso
            apply hpe
            have := dCyc_inj hqlt (Nat.mod_lt _ htc) hp0 (by rw [hqe]; omega)
            rw [this]
          · rw [hqe]
            omega
      have hhe : dCyc s.tableCount hmp ((f + d) % s.tableCount) =
          u + dCyc s.tableCount q ((f + d) % s.tableCount) := by
        have h6 := dCyc_add_mod (b := q) hmplt hqlt (Nat.mod_lt (f + d) htc)
        rw [hqu] at h6
        have h5 : dCyc s.tableCount hmp p < s.tableCount := dCyc_lt _ _ _ htc
        rw [h6, Nat.mod_eq_of_lt (by omega)]
      have hq2 := hcp (dCyc s.tableCount hmp ((f + d) % s.tableCount)) (by omega)
      rw [probe_dCyc (Nat.le_of_lt hmplt) (Nat.mod_lt _ htc)] at hq2
      exact hq2 hemp
    · show (getE (0, 0) σ.buf ((hmp + u) % s.tableCount)).1 ≠ 0
      rw [hout _ (by tauto)]
      exact hq
  · -- slots of the stretch keep weak paths
    intro p hp hocp harc
    have hp0 : p < s.tableCount := by rw [← hstc]; exact hp
    have hsp := hslot p hp0 hocp
    have hkeq : keyAt σ p = keyAt s p := by
      show (getE (0, 0) σ.buf p).1 = (getE (0, 0) s.buf p).1
      rw [hsp]
    have hocsp : keyAt s p ≠ 0 := by
      rw [← hkeq]
      exact hocp
    have hcp := hpaths p hp0 hocsp
    have hhome : homeOf hf σ (keyAt σ p) = homeOf hf s (keyAt s p) := by
      unfold homeOf
      rw [hkeq, hstc]
    show WeakPathAt σ f d (homeOf hf σ (keyAt σ p)) p
    rw [hhome]
    unfold WeakPathAt
    rw [hstc]
    intro u hu
    by_cases hqw : dCyc s.tableCount f ((homeOf hf s (keyAt s p) + u) % s.tableCount) < d
    · right
      exact hqw
    · left
      show (getE (0, 0) σ.buf ((homeOf hf s (keyAt s p) + u) % s.tableCount)).1 ≠ 0
      rw [hout _ (by tauto)]
      exact hcp u hu

end MojoMMT

theorem countP_lt_of_false {l : List Nat} {p : Nat → Bool} {x : Nat}
    (hx : x ∈ l) (hpx : p x = false) : l.countP p < l.length := by
  rcases Nat.lt_or_ge (l.countP p) l.length with h | h
  · exact h
  · exfalso
    have hle := List.countP_le_length (l := l) p
    have heq : l.countP p = l.length := by omega
    have h2 := List.countP_eq_length.mp heq x hx
    rw [hpx] at h2
    exact Bool.noConfusion h2

theorem tailWF_of_length {s : MojoMMT} (h : (s.buf.getD []).length ≤ s.tableCount) :
    MojoMMT.TailWF s := by
  intro i hi
  show getE (0, 0) s.buf i = (0, 0)
  unfold getE
  exact List.getD_eq_default _ _ (by omega)

namespace MojoMMT

/-- From the representation invariant with room, every key's slots form a
weak cluster: the key probe lands on a slot of the key, and every key slot
is reachable from it through occupied slots. -/
theorem weakCluster_of_WF {hf : Nat → Nat} {s : MojoMMT}
    (hcw : CountWF s) (hpaths : PathsWF hf s) (hroom : s.activeCount < s.tableCount)
    {k : Nat} (hk : k ≠ 0) : WeakCluster hf s k := by
  unfold WeakCluster
  rintro ⟨i, hi, hik⟩
  have htc : 0 < s.tableCount := by omega
  have hstart : homeOf hf s k < s.tableCount := Nat.mod_lt _ htc
  obtain ⟨hkf, hflt, _, _⟩ := findKey_present hcw hpaths hroom hk hi hik
  refine ⟨hkf, ?_⟩
  intro j hj hkj t ht
  obtain ⟨_, _, hlej, _⟩ := findKey_present hcw hpaths hroom hk hj hkj
  have hsum : dCyc s.tableCount (homeOf hf s k) j =
      dCyc s.tableCount (homeOf hf s k) (FindKey hf s k) +
        dCyc s.tableCount (FindKey hf s k) j :=
    dCyc_add_of_le hstart hflt hj hlej
  have hp := hpaths j hj (by rw [hkj]; exact hk)
  rw [hkj] at hp
  have h2 := hp (dCyc s.tableCount (homeOf hf s k) (FindKey hf s k) + t) (by omega)
  have hpos : (homeOf hf s k +
      (dCyc s.tableCount (homeOf hf s k) (FindKey hf s k) + t)) % s.tableCount =
      (FindKey hf s k + t) % s.tableCount := by
    rw [← Nat.add_assoc, ← Nat.mod_add_mod,
      probe_dCyc (Nat.le_of_lt hstart) hflt]
  rw [hpos] at h2
  exact h2

end MojoMMT

namespace MojoMMT

/-- The index list walked by FixUp is the list of positions at cyclic
offsets 1, ..., tc-1 from f. -/
theorem fixUp_list_eq {f tc : Nat} (hflt : f < tc) :
    List.range' (f + 1) (tc - (f + 1)) ++ List.range' 0 f
      = (List.range' 1 (tc - 1)).map (fun u => (f + u) % tc) := by
  apply List.ext_getElem
  · simp
    omega
  · intro n h1 h2
    have hn : n < tc - 1 := by
      simp at h2
      omega
    rw [List.getElem_map, List.getElem_range']
    rcases Nat.lt_or_ge n (tc - (f + 1)) with hc | hc
    · rw [List.getElem_append_left (by simp; omega)]
      rw [List.getElem_range']
      have : f + (1 + 1 * n) = f + 1 + 1 * n := by omega
      rw [this, Nat.mod_eq_of_lt (by omega)]
    · rw [List.getElem_append_right (by simp; omega)]
      rw [List.getElem_range']
      simp only [List.length_range']
      have h3 : f + (1 + 1 * n) = (n - (tc - (f + 1))) + tc := by omega
      rw [h3, Nat.add_mod_right, Nat.mod_eq_of_lt (by omega)]
      omega

/-- FixUp over the scanned stretch is the fix-up walk over the positions at
offsets 1, ..., d from f. -/
theorem fixUp_eq_go {hf : Nat → Nat} {σ : MojoMMT} {f d tc : Nat}
    (hstc : σ.tableCount = tc) (hflt : f < tc) (hd : d ≤ tc - 1) :
    FixUp hf σ f d = fixUpGo hf σ ((List.range' 1 d).map (fun u => (f + u) % tc)) d := by
  unfold FixUp
  rw [hstc, fixUp_list_eq hflt]
  have hsplit : List.range' 1 (tc - 1) = List.range' 1 d ++ List.range' (1 + d) (tc - 1 - d) := by
    have h := List.range'_append 1 d (tc - 1 - d) 1
    simp only [Nat.one_mul] at h
    rw [show tc - 1 - d + d = tc - 1 from by omega] at h
    exact h.symm
  rw [hsplit, List.map_append]
  exact fixUpGo_append hf _ _ d _ (by simp)

end MojoMMT

namespace MojoMMT

/-- The common core of RemoveAll and RemoveOne(key, value): starting the
clearing scan at the key probe slot (occupied) and fixing up the scanned
stretch preserves the representation invariant and leaves an empty slot. -/
theorem scanFix_WF {hf : Nat → Nat} {s : MojoMMT} {key : Nat} (hit : KV → Bool)
    (hwf : WF hf s) (hroom : s.activeCount < s.tableCount)
    (hocc : (getE (0, 0) s.buf (FindKey hf s key)).1 ≠ 0) :
    WF hf (FixUp hf (removeScan hit s (FindKey hf s key) 0 (s.tableCount + 1)).1
        (FindKey hf s key) (removeScan hit s (FindKey hf s key) 0 (s.tableCount + 1)).2) ∧
    (FixUp hf (removeScan hit s (FindKey hf s key) 0 (s.tableCount + 1)).1
        (FindKey hf s key) (removeScan hit s (FindKey hf s key) 0 (s.tableCount + 1)).2).activeCount <
      (FixUp hf (removeScan hit s (FindKey hf s key) 0 (s.tableCount + 1)).1
        (FindKey hf s key) (removeScan hit s (FindKey hf s key) 0 (s.tableCount + 1)).2).tableCount := by
  obtain ⟨hbuf, hcw, hpaths, hdis, htail⟩ := hwf
  have htc : 0 < s.tableCount := by omega
  set f := FindKey hf s key with hfdef
  -- the probe stays in range
  obtain ⟨z, hz, hzz⟩ := countP_lt_exists_empty hcw hroom
  have hflt : f < s.tableCount := by
    have hex : ∃ j, j < s.tableCount ∧
        ((getE (0, 0) s.buf j).1 == 0 || (getE (0, 0) s.buf j).1 == key) = true := by
      refine ⟨z, hz, ?_⟩
      have hzz' : (getE (0, 0) s.buf z).1 = 0 := hzz
      rw [show ((getE (0, 0) s.buf z).1 == 0) = true from beq_iff_eq.mpr hzz', Bool.true_or]
    obtain ⟨_, h2, _⟩ := @femIdx_spec s.tableCount (hf key % s.tableCount)
      (fun j => (getE (0, 0) s.buf j).1 == 0 || (getE (0, 0) s.buf j).1 == key)
      (Nat.mod_lt _ htc) hex
    exact h2
  -- the first empty slot ahead of the probe
  have hex2 : ∃ u, keyAt s ((f + u) % s.tableCount) = 0 := by
    refine ⟨dCyc s.tableCount f z, ?_⟩
    rw [probe_dCyc (Nat.le_of_lt hflt) hz]
    exact hzz
  set d := Nat.find hex2 with hddef
  have hdspec : keyAt s ((f + d) % s.tableCount) = 0 := Nat.find_spec hex2
  have hdmin : ∀ u, u < d → keyAt s ((f + u) % s.tableCount) ≠ 0 := by
    intro u hu
    exact Nat.find_min hex2 hu
  have hdlt : d < s.tableCount := by
    have h1 : d ≤ dCyc s.tableCount f z := by
      apply Nat.find_min'
      rw [probe_dCyc (Nat.le_of_lt hflt) hz]
      exact hzz
    have h2 := dCyc_lt s.tableCount f z htc
    omega
  have hd1 : 1 ≤ d := by
    rcases Nat.eq_zero_or_pos d with h0 | h
    · exfalso
      apply hocc
      have := hdspec
      rw [h0, Nat.add_zero, Nat.mod_eq_of_lt hflt] at this
      exact this
    · exact h
  -- the scan is the clearing walk
  have hscan : removeScan hit s f 0 (s.tableCount + 1) = (clearHits hit s f d, 0 + d) :=
    removeScan_eq d s f 0 (s.tableCount + 1) (by omega) hdlt hflt
      (fun u hu => hdmin u hu) hdspec
  rw [hscan]
  obtain ⟨h1, h2, h3, h4, h5, h6, h7⟩ := clearHits_inv d s f hflt hdlt
    (fun u hu => hdmin u hu)
  set σ := clearHits hit s f d with hsig
  have hsbuf : BufWF σ := by
    refine ⟨?_, ?_, ?_⟩
    · rw [h3]
      exact hbuf.1
    · rw [h4, h2]
      exact hbuf.2.1
    · rw [h1, h2]
      exact hbuf.2.2
  have hbase := fixInv_base hpaths hdis htail hflt hdlt hd1 hdspec h1 hsbuf (h5 hcw) h6 h7
  have hgo := @fixUpGo_inv_aux hf f d s.tableCount d 1 σ h1 (by omega) (by omega) hbase
  have heq := @fixUp_eq_go hf σ f d s.tableCount h1 hflt (by omega)
  rw [show (0 + d) = d from by omega, heq]
  set res := fixUpGo hf σ ((List.range' 1 d).map (fun u => (f + u) % s.tableCount)) d with hres
  obtain ⟨hrf, hrd, hrbuf, hrcw, hrdis, hrtail, hremp, hrii, _⟩ := hgo
  have hrpaths : PathsWF hf res := by
    intro p hp hocp
    exact hrii p hp hocp (by
      unfold InArc
      rintro ⟨ha, hb⟩
      omega)
  have hrtc : 0 < res.tableCount := by omega
  have hroom' : res.activeCount < res.tableCount := by
    unfold CountWF at hrcw
    have hmem : (f + d) % res.tableCount ∈ List.range res.tableCount :=
      List.mem_range.mpr (Nat.mod_lt _ hrtc)
    have hfalse : (fun x => keyAt res x != 0) ((f + d) % res.tableCount) = false := by
      show (keyAt res ((f + d) % res.tableCount) != 0) = false
      rw [hremp]
      rfl
    have := countP_lt_of_false (p := fun x => keyAt res x != 0) hmem hfalse
    rw [List.length_range] at this
    omega
  exact ⟨⟨hrbuf, hrcw, hrpaths, hrdis, hrtail⟩, hroom'⟩

end MojoMMT

theorem MojoMMT.distinctWF_of_chk {s : MojoMMT} (h : MojoMMT.distinctChk s = true) :
    MojoMMT.DistinctWF s := by
  unfold MojoMMT.DistinctWF
  intro i hi j hj hki hkj hij
  unfold MojoMMT.distinctChk at h
  rw [List.all_eq_true] at h
  have h1 := h i (List.mem_range.mpr hi)
  rw [List.all_eq_true] at h1
  have h2 := h1 j (List.mem_range.mpr hj)
  have hki' : (keyAt s i != 0) = true := bne_iff_ne.mpr hki
  have hkj' : (keyAt s j != 0) = true := bne_iff_ne.mpr hkj
  have hij' : (i == j) = false := beq_eq_false_iff_ne.mpr hij
  rw [hki', hkj', hij'] at h2
  simp only [Bool.not_true, Bool.false_or] at h2
  exact bne_iff_ne.mp h2

/-- C2 (amended): on a MojoMultiMap state satisfying the table invariants
with at least one empty slot, the slots of each stored key form a weak
cluster — the key probe lands on a slot of the key and every slot of the
key is reached from it by walking forward over occupied slots only (slots
of other keys may be interleaved, so the run is not exactly one contiguous
block of the key alone) — and both removals (remove-all-of-key and
remove-one-pair) followed by their FixUp preserve the table invariants and
this weak cluster property for every key. -/
theorem C2_weak_cluster_corrected (hf : Nat → Nat) (s : MojoMMT) (key value : Nat)
    (hwf : MojoMMT.WF hf s) (hroom : s.activeCount < s.tableCount) :
    (∀ k, k ≠ 0 → MojoMMT.WeakCluster hf s k) ∧
    (MojoMMT.WF hf (MojoMMT.RemoveAll hf s key).2 ∧
      ∀ k, k ≠ 0 → MojoMMT.WeakCluster hf (MojoMMT.RemoveAll hf s key).2 k) ∧
    (MojoMMT.WF hf (MojoMMT.RemoveOnePair hf s key value).2 ∧
      ∀ k, k ≠ 0 → MojoMMT.WeakCluster hf (MojoMMT.RemoveOnePair hf s key value).2 k) := by
  have hra : MojoMMT.WF hf (MojoMMT.RemoveAll hf s key).2 ∧
      (MojoMMT.RemoveAll hf s key).2.activeCount <
        (MojoMMT.RemoveAll hf s key).2.tableCount := by
    unfold MojoMMT.RemoveAll
    dsimp only
    split
    · split
      · rename_i hocc
        exact MojoMMT.scanFix_WF (fun e => e.1 == key) hwf hroom hocc
      · exact ⟨hwf, hroom⟩
    · exact ⟨hwf, hroom⟩
  have hrp : MojoMMT.WF hf (MojoMMT.RemoveOnePair hf s key value).2 ∧
      (MojoMMT.RemoveOnePair hf s key value).2.activeCount <
        (MojoMMT.RemoveOnePair hf s key value).2.tableCount := by
    unfold MojoMMT.RemoveOnePair
    dsimp only
    split
    · split
      · rename_i hocc
        exact MojoMMT.scanFix_WF (fun e => e.1 == key && e.2 == value) hwf hroom hocc
      · exact ⟨hwf, hroom⟩
    · exact ⟨hwf, hroom⟩
  refine ⟨fun k hk => MojoMMT.weakCluster_of_WF hwf.2.1 hwf.2.2.1 hroom hk,
    ⟨hra.1, fun k hk => MojoMMT.weakCluster_of_WF hra.1.2.1 hra.1.2.2.1 hra.2 hk⟩,
    ⟨hrp.1, fun k hk => MojoMMT.weakCluster_of_WF hrp.1.2.1 hrp.1.2.2.1 hrp.2 hk⟩⟩

/-- Witness for C2 at a concrete input: the multimap {(1,10), (2,20)} in a
table of 4 with identity hashing, removing key 1 (and the pair (1,10)). -/
theorem C2_weak_cluster_corrected_witness :
    let s : MojoMMT := MojoMMT.Insert id true
      (MojoMMT.Insert id true (MojoMMT.Create id true 4 4 80 30 true true true) 1 10) 2 20
    (MojoMMT.WF id s ∧ s.activeCount < s.tableCount) ∧
    ((∀ k, k ≠ 0 → MojoMMT.WeakCluster id s k) ∧
     (MojoMMT.WF id (MojoMMT.RemoveAll id s 1).2 ∧
       ∀ k, k ≠ 0 → MojoMMT.WeakCluster id (MojoMMT.RemoveAll id s 1).2 k) ∧
     (MojoMMT.WF id (MojoMMT.RemoveOnePair id s 1 10).2 ∧
       ∀ k, k ≠ 0 → MojoMMT.WeakCluster id (MojoMMT.RemoveOnePair id s 1 10).2 k)) := by
  have hwf : MojoMMT.WF id (MojoMMT.Insert id true
      (MojoMMT.Insert id true (MojoMMT.Create id true 4 4 80 30 true true true) 1 10) 2 20) := by
    refine ⟨by unfold MojoMMT.BufWF; decide, by unfold MojoMMT.CountWF; decide,
      by unfold MojoMMT.PathsWF; decide,
      MojoMMT.distinctWF_of_chk (by decide),
      tailWF_of_length (by decide)⟩
  refine ⟨⟨hwf, by decide⟩, ?_⟩
  exact C2_weak_cluster_corrected id _ 1 10 hwf (by decide)
